import Mathlib

/-!
Verification of the structured-data core of the zero-touch-training repository:
the BPMN process-graph parser, the Tosca test-script parser, and the Opal
site-overlay assembler.  Python classes are embedded as Lean structures, the
parser/traversal code as executable Lean functions.  Strings are modelled by
Lean `String` / `List Char`; Python dictionaries by association lists with
first-key-wins lookup (Python dict keys are unique, so lookup agrees).
-/

namespace ZTT

/-! ### Generic string helpers

Python `x in y` on strings is contiguous-substring containment; `str.lower` /
`str.upper` are modelled with `Char.toLower` / `Char.toUpper`, which agree on
the ASCII literals the code compares against. -/

/-- Boolean test that the first list is a prefix of the second. -/
def startsWithL : List Char → List Char → Bool
  | [], _ => true
  | _ :: _, [] => false
  | n :: ns, h :: hs => n == h && startsWithL ns hs

/-- Boolean test that `needle` occurs as a contiguous sublist of `hay`
(the semantics of Python `needle in hay` on strings). -/
def containsL : List Char → List Char → Bool
  | [], ns => startsWithL ns []
  | h :: t, ns => startsWithL ns (h :: t) || containsL t ns

/-- Lower-casing of a string, character by character (Python `str.lower`). -/
def lowerL (s : String) : List Char := s.toList.map Char.toLower

/-- Upper-casing of a string, character by character (Python `str.upper`). -/
def upperL (s : String) : List Char := s.toList.map Char.toUpper

/-- Containment of the string `needle` in the string `hay`, as lists. -/
def strContains (hay needle : List Char) : Bool := containsL hay needle

/-! ### Tosca test-script model (`src/poc/parsers/tosca_parser.py`) -/

/-- Validation assertion attached to a test step (class `Assertion`). -/
structure Assertion where
  type : String
  field_reference : String := ""
  expected_value : String := ""
  allowed_values : String := ""
  validation_type : String := ""
  reason : String := ""
  deriving DecidableEq, Repr

/-- Reference to a UI element targeted by a step (class `UIElement`). -/
structure UIElement where
  identifier : String
  description : String := ""
  deriving DecidableEq, Repr

/-- One step of a Tosca test script (class `TestStep`). -/
structure TestStep where
  step_id : String
  step_number : Int
  description : String
  action_type : String
  element : Option UIElement := none
  value : String := ""
  target_url : String := ""
  expected_result : String := ""
  screenshot : String := ""
  assertions : List Assertion := []
  deriving DecidableEq, Repr

/-- Property `TestStep.is_user_action`:
`self.action_type in ("NAVIGATE", "CLICK", "INPUT", "SELECT")`. -/
def TestStep.is_user_action (s : TestStep) : Prop :=
  s.action_type ∈ (["NAVIGATE", "CLICK", "INPUT", "SELECT"] : List String)

/-- Property `TestStep.is_verification`:
`self.action_type in ("VERIFY", "CALCULATE")`. -/
def TestStep.is_verification (s : TestStep) : Prop :=
  s.action_type ∈ (["VERIFY", "CALCULATE"] : List String)

instance (s : TestStep) : Decidable s.is_user_action := by
  unfold TestStep.is_user_action; infer_instance

instance (s : TestStep) : Decidable s.is_verification := by
  unfold TestStep.is_verification; infer_instance

/-- Site-specific annotation on a script (class `Annotation`). -/
structure Annotation where
  type : String
  step_id : String := ""
  description : String := ""
  deriving DecidableEq, Repr

/-- One field of the test data set (class `TestDataRow`). -/
structure TestDataRow where
  field_name : String
  field_value : String
  field_description : String := ""
  deriving DecidableEq, Repr

/-- Parsed Tosca test script (class `ToscaTestScript`). -/
structure ToscaTestScript where
  script_id : String
  name : String
  description : String
  version : String
  process : String := ""
  transaction : String := ""
  site_code : String := ""
  site_name : String := ""
  system_name : String := ""
  execution_status : String := ""
  execution_count : Int := 0
  last_executed : String := ""
  steps : List TestStep := []
  annotations : List Annotation := []
  test_data : List TestDataRow := []
  deriving DecidableEq, Repr

/-- Property `ToscaTestScript.user_action_steps`:
`[s for s in self.steps if s.is_user_action]`. -/
def ToscaTestScript.user_action_steps (sc : ToscaTestScript) : List TestStep :=
  sc.steps.filter (fun s => decide s.is_user_action)

/-- Property `ToscaTestScript.site_specific_annotations`:
`[a for a in self.annotations if "SPECIFIC" in a.type.upper()]`. -/
def ToscaTestScript.site_specific_annotations (sc : ToscaTestScript) : List Annotation :=
  sc.annotations.filter (fun a => strContains (upperL a.type) "SPECIFIC".toList)

/-- Inner loop of `site_specific_steps`: Python iterates the step's
assertions and appends the step on the first assertion whose non-empty
`reason` contains "anniston" or "site" (lower-cased), then breaks.  This is
exactly `List.any` over the assertions. -/
def assertionSiteHit (a : Assertion) : Bool :=
  (a.reason != "") &&
    (strContains (lowerL a.reason) "anniston".toList ||
     strContains (lowerL a.reason) "site".toList)

/-- Property `ToscaTestScript.site_specific_steps`: for each step in order,
append it if its `step_id` is among the site-specific annotations' step ids,
else if some assertion trips `assertionSiteHit`. -/
def ToscaTestScript.site_specific_steps (sc : ToscaTestScript) : List TestStep :=
  let site_step_ids := sc.site_specific_annotations.map (·.step_id)
  go site_step_ids sc.steps
where
  /-- Loop body of `site_specific_steps`. -/
  go (ids : List String) : List TestStep → List TestStep
    | [] => []
    | s :: rest =>
      if s.step_id ∈ ids then s :: go ids rest
      else if s.assertions.any assertionSiteHit then s :: go ids rest
      else go ids rest

/-- Predicate form of the code's per-step test in `site_specific_steps`. -/
def siteSpecificPred (sc : ToscaTestScript) (s : TestStep) : Prop :=
  s.step_id ∈ sc.site_specific_annotations.map (·.step_id) ∨
    ∃ a ∈ s.assertions, assertionSiteHit a = true

instance (sc : ToscaTestScript) (s : TestStep) : Decidable (siteSpecificPred sc s) := by
  unfold siteSpecificPred; infer_instance

/-- Modelled from the spec: the spec's own wording of the assertion-reason
heuristic — the `reason` contains the substring "site" or the script's
literal site name, case-insensitively (spec §4.2).  Used only to compare the
spec's claim against the code, which hard-codes "anniston" instead. -/
def specSiteSpecificPred (sc : ToscaTestScript) (s : TestStep) : Prop :=
  s.step_id ∈ sc.site_specific_annotations.map (·.step_id) ∨
    ∃ a ∈ s.assertions, a.reason ≠ "" ∧
      (strContains (lowerL a.reason) "site".toList = true ∨
       strContains (lowerL a.reason) (lowerL sc.site_name) = true)

instance (sc : ToscaTestScript) (s : TestStep) : Decidable (specSiteSpecificPred sc s) := by
  unfold specSiteSpecificPred; infer_instance

/-- The loop of `site_specific_steps` keeps exactly the steps passing the
membership-or-assertion test, in order. -/
theorem site_specific_go_eq_filter (ids : List String) (steps : List TestStep) :
    ToscaTestScript.site_specific_steps.go ids steps
      = steps.filter (fun s => decide (s.step_id ∈ ids) || s.assertions.any assertionSiteHit) := by
  induction steps with
  | nil => rfl
  | cons s rest ih =>
    by_cases h1 : s.step_id ∈ ids
    · simp [ToscaTestScript.site_specific_steps.go, h1, ih, List.filter_cons]
    · by_cases h2 : s.assertions.any assertionSiteHit
      · simp [ToscaTestScript.site_specific_steps.go, h1, h2, ih, List.filter_cons]
      · simp [ToscaTestScript.site_specific_steps.go, h1, h2, ih, List.filter_cons]

/-- The loop of `site_specific_steps` is the filter by `siteSpecificPred`. -/
theorem site_specific_steps_eq_filter (sc : ToscaTestScript) :
    sc.site_specific_steps = sc.steps.filter (fun s => decide (siteSpecificPred sc s)) := by
  show ToscaTestScript.site_specific_steps.go _ _ = _
  rw [site_specific_go_eq_filter]
  apply List.filter_congr
  intro s _
  rw [Bool.eq_iff_iff]
  simp [siteSpecificPred, List.any_eq_true]

/-! ### Fixtures for the Tosca claims -/

/-- Step whose only assertion mentions the site by name ("Berlin"), not the
words "site" or "anniston". -/
def berlinStep : TestStep :=
  { step_id := "T1", step_number := 1, description := "Enter plant", action_type := "INPUT",
    assertions := [{ type := "FIELD_REQUIRED", reason := "Berlin plant requires batch entry" }] }

/-- Script located at a site named "Berlin". -/
def berlinScript : ToscaTestScript :=
  { script_id := "TS9", name := "GR Berlin", description := "", version := "1",
    site_name := "Berlin", steps := [berlinStep] }

/-- Step that trips both the annotation match and the assertion-reason match. -/
def annistonStep : TestStep :=
  { step_id := "T2", step_number := 2, description := "Enter batch", action_type := "INPUT",
    assertions := [{ type := "FIELD_REQUIRED", reason := "Anniston site requires batch" }] }

/-- Script at the Anniston site, with a SITE_SPECIFIC annotation pointing at
the step that also matches by assertion reason. -/
def annistonScript : ToscaTestScript :=
  { script_id := "TS1", name := "GR Anniston", description := "", version := "1",
    site_name := "Anniston",
    steps := [{ step_id := "T0", step_number := 1, description := "Open", action_type := "NAVIGATE" },
              annistonStep],
    annotations := [{ type := "SITE_SPECIFIC", step_id := "T2", description := "batch rule" }] }

/-! ### Claim theorems: Tosca parser -/

/-- C5: a step is a user action exactly when its action type is NAVIGATE,
CLICK, INPUT or SELECT; a verification exactly when it is VERIFY or
CALCULATE; and no action type satisfies both predicates. -/
theorem C5_action_predicates (s : TestStep) :
    (s.is_user_action ↔ s.action_type ∈ (["NAVIGATE", "CLICK", "INPUT", "SELECT"] : List String)) ∧
    (s.is_verification ↔ s.action_type ∈ (["VERIFY", "CALCULATE"] : List String)) ∧
    ¬(s.is_user_action ∧ s.is_verification) := by
  refine ⟨Iff.rfl, Iff.rfl, ?_⟩
  rintro ⟨h1, h2⟩
  simp only [TestStep.is_user_action, TestStep.is_verification, List.mem_cons,
    List.not_mem_nil, or_false] at h1 h2
  rcases h1 with h | h | h | h <;> rw [h] at h2 <;> simp at h2

/-- Witness for C5 at a concrete NAVIGATE step. -/
theorem C5_action_predicates_witness :
    berlinStep.is_user_action ∧ ¬(berlinStep.is_user_action ∧ berlinStep.is_verification) :=
  ⟨by decide, (C5_action_predicates berlinStep).2.2⟩

/-- C2 counterexample: in `berlinScript` the step's assertion reason contains
the script's literal site name ("Berlin"), so the claim as stated includes
the step among `site_specific_steps`; the code, which matches the hard-coded
"anniston" instead of the site name, excludes it. -/
theorem C2_counterexample :
    specSiteSpecificPred berlinScript berlinStep ∧
      berlinStep ∉ berlinScript.site_specific_steps := by
  constructor
  · decide
  · decide

/-- C2 (amended): `site_specific_steps` is exactly the steps whose `step_id`
matches a site-specific annotation, or having an assertion whose non-empty
reason contains, case-insensitively, the substring "site" or the literal
string "anniston" (the code's hard-coded site name, not the script's
`site_name` field). -/
theorem C2_site_specific_steps (sc : ToscaTestScript) :
    sc.site_specific_steps = sc.steps.filter (fun s => decide
      (s.step_id ∈ sc.site_specific_annotations.map (·.step_id) ∨
        ∃ a ∈ s.assertions, a.reason ≠ "" ∧
          (strContains (lowerL a.reason) "anniston".toList = true ∨
           strContains (lowerL a.reason) "site".toList = true))) := by
  rw [site_specific_steps_eq_filter]
  apply List.filter_congr
  intro s _
  rw [decide_eq_decide]
  simp [siteSpecificPred, assertionSiteHit, List.any_eq_true, bne_iff_ne, and_assoc]

/-- C10: `site_specific_steps` is a sublist of `steps` (steps appear in their
original relative order), and when the script's steps are distinct no step is
duplicated, even if it matches both the annotation and the assertion path. -/
theorem C10_site_specific_steps_order (sc : ToscaTestScript) (h : sc.steps.Nodup) :
    sc.site_specific_steps.Sublist sc.steps ∧ sc.site_specific_steps.Nodup := by
  rw [site_specific_steps_eq_filter]
  exact ⟨List.filter_sublist _, (List.filter_sublist _).nodup h⟩

/-- Witness for C10: the Anniston script's step matches both inclusion paths
yet appears only once, in source order. -/
theorem C10_site_specific_steps_order_witness :
    annistonScript.steps.Nodup ∧
      annistonScript.site_specific_steps.Sublist annistonScript.steps ∧
      annistonScript.site_specific_steps.Nodup := by
  have h := C10_site_specific_steps_order annistonScript (by decide)
  exact ⟨by decide, h.1, h.2⟩

/-! ### Opal overlay assembler (`src/poc/assembler/overlay.py`)

YAML values are modelled by the inductive `Yaml`; YAML mappings by
association lists with unique keys (as produced by `yaml.safe_load`), looked
up first-match.  The assembler state after `load()` is the pair
(`site_info`, `raw_overlays`). -/

/-- YAML value: scalar (kept as its string form), sequence, or mapping. -/
inductive Yaml where
  | str : String → Yaml
  | seq : List Yaml → Yaml
  | map : List (String × Yaml) → Yaml

/-- Python `d[k]` / `k in d` on a dict: first entry with the key. -/
def dGet (kvs : List (String × Yaml)) (k : String) : Option Yaml :=
  (kvs.find? (fun e => e.1 = k)).map (·.2)

/-- Python `d.get(k, default)`. -/
def dGetD (kvs : List (String × Yaml)) (k : String) (d : Yaml) : Yaml :=
  (dGet kvs k).getD d

/-- Keys of a dict, for stating key-presence facts. -/
def dKeys (kvs : List (String × Yaml)) : List String := kvs.map (·.1)

/-- Assembler state after `load()`: `site_info` and the concatenated
`raw_overlays` rule list. -/
structure OpalOverlayAssembler where
  site_info : List (String × Yaml) := []
  raw_overlays : List (List (String × Yaml)) := []

/-- Variation list of a raw rule: `overlay.get("variations", [])`.  The
Python code then iterates the resulting list; a non-sequence value under
"variations" is not iterable as rule dicts in the source, so it is modelled
as the empty contribution. -/
def varsRaw (rule : List (String × Yaml)) : List Yaml :=
  match dGet rule "variations" with
  | some (Yaml.seq vs) => vs
  | _ => []

/-- Variation dicts of a raw rule.  `resolve` calls `variation.get(...)` on
each entry, which requires a mapping; non-mapping entries would fault in the
source and are excluded from the model. -/
def varsOf (rule : List (String × Yaml)) : List (List (String × Yaml)) :=
  (varsRaw rule).filterMap (fun v => match v with | Yaml.map kvs => some kvs | _ => none)

/-- Projection of one raw variation performed inside `resolve`: the four
base keys are always written (with `""` defaults); `field` (plus
`field_technical`), `step`, `tiers`, `condition`, `actions` and
`temperature_ranges` are written only when present in the source dict. -/
def resolveVariation (v : List (String × Yaml)) : List (String × Yaml) :=
  [("type", dGetD v "type" (Yaml.str "")),
   ("enterprise_default", dGetD v "enterprise_default" (Yaml.str "")),
   ("site_override", dGetD v "site_override" (Yaml.str "")),
   ("reason", dGetD v "reason" (Yaml.str ""))]
  ++ (match dGet v "field" with
      | some fv => [("field", fv), ("field_technical", dGetD v "field_technical" (Yaml.str ""))]
      | none => [])
  ++ (match dGet v "step" with | some sv => [("step", sv)] | none => [])
  ++ (match dGet v "tiers" with | some tv => [("tiers", tv)] | none => [])
  ++ (match dGet v "condition" with | some cv => [("condition", cv)] | none => [])
  ++ (match dGet v "actions" with | some av => [("actions", av)] | none => [])
  ++ (match dGet v "temperature_ranges" with | some rv => [("temperature_ranges", rv)] | none => [])

/-- Projection of one raw rule performed inside `resolve`. -/
def resolveRule (r : List (String × Yaml)) : List (String × Yaml) :=
  [("process", dGetD r "process" (Yaml.str "")),
   ("transaction", dGetD r "transaction" (Yaml.str "")),
   ("variations", Yaml.seq ((varsOf r).map (fun v => Yaml.map (resolveVariation v))))]

/-- Method `OpalOverlayAssembler.resolve`: builds the resolved structure from
the loaded state.  The `role` argument is accepted and ignored, exactly as in
the source. -/
def OpalOverlayAssembler.resolve (st : OpalOverlayAssembler) (role : String) :
    List (String × Yaml) :=
  [("site", Yaml.map st.site_info),
   ("overlays", Yaml.seq (st.raw_overlays.map (fun r => Yaml.map (resolveRule r))))]

/-- Comparison `overlay.get("transaction", "") == transaction_code`: a missing
key compares as the empty string; a non-string value never equals a string. -/
def txnMatches (r : List (String × Yaml)) (code : String) : Bool :=
  match dGet r "transaction" with
  | some (Yaml.str t) => t == code
  | some _ => false
  | none => "" == code

/-- Method `OpalOverlayAssembler.get_overlays_for_transaction`: walk the rules
in load order and collect the variations of those whose transaction matches. -/
def OpalOverlayAssembler.get_overlays_for_transaction
    (st : OpalOverlayAssembler) (code : String) : List Yaml :=
  go st.raw_overlays
where
  /-- Loop of `get_overlays_for_transaction`. -/
  go : List (List (String × Yaml)) → List Yaml
    | [] => []
    | r :: rest => (if txnMatches r code then varsRaw r else []) ++ go rest

/-- Overlays list of a resolved structure (`resolved["overlays"]`). -/
def overlaysOf (d : List (String × Yaml)) : List Yaml :=
  match dGet d "overlays" with
  | some (Yaml.seq l) => l
  | _ => []

/-- A key is present in a dict exactly when lookup succeeds. -/
theorem dGet_isSome_iff_mem_dKeys (kvs : List (String × Yaml)) (k : String) :
    (dGet kvs k).isSome ↔ k ∈ dKeys kvs := by
  rw [dGet, dKeys, Option.isSome_map']
  rw [List.find?_isSome, List.mem_map]
  constructor
  · rintro ⟨e, he, hk⟩
    exact ⟨e, he, by simpa using hk.symm⟩
  · rintro ⟨e, he, hk⟩
    exact ⟨e, he, by simp [hk]⟩

/-- Key inventory of a resolved variation: the four base keys always, the
conditional keys exactly when present in the source variation (with
`field_technical` riding along with `field`). -/
theorem mem_dKeys_resolveVariation (v : List (String × Yaml)) (k : String) :
    k ∈ dKeys (resolveVariation v) ↔
      (k ∈ (["type", "enterprise_default", "site_override", "reason"] : List String) ∨
       ((k = "field" ∨ k = "field_technical") ∧ (dGet v "field").isSome) ∨
       (k = "step" ∧ (dGet v "step").isSome) ∨
       (k = "tiers" ∧ (dGet v "tiers").isSome) ∨
       (k = "condition" ∧ (dGet v "condition").isSome) ∨
       (k = "actions" ∧ (dGet v "actions").isSome) ∨
       (k = "temperature_ranges" ∧ (dGet v "temperature_ranges").isSome)) := by
  rcases h1 : dGet v "field" with _ | f1 <;>
    rcases h2 : dGet v "step" with _ | f2 <;>
      rcases h3 : dGet v "tiers" with _ | f3 <;>
        rcases h4 : dGet v "condition" with _ | f4 <;>
          rcases h5 : dGet v "actions" with _ | f5 <;>
            rcases h6 : dGet v "temperature_ranges" with _ | f6 <;>
              simp [resolveVariation, dKeys, h1, h2, h3, h4, h5, h6, or_assoc]

/-! ### Fixtures for the overlay claims (spec §8 Scenario C) -/

/-- The Scenario C variation: only `type`, `field`, `enterprise_default`,
`site_override`, `reason`. -/
def migoVariation : List (String × Yaml) :=
  [("type", Yaml.str "field_constraint"), ("field", Yaml.str "Batch"),
   ("enterprise_default", Yaml.str "optional"), ("site_override", Yaml.str "mandatory"),
   ("reason", Yaml.str "recall traceability")]

/-- The Scenario C rule for transaction MIGO. -/
def migoRule : List (String × Yaml) :=
  [("process", Yaml.str "Goods Receipt"), ("transaction", Yaml.str "MIGO"),
   ("variations", Yaml.seq [Yaml.map migoVariation])]

/-- Assembler loaded with the single Scenario C rule. -/
def migoAssembler : OpalOverlayAssembler :=
  { site_info := [("name", Yaml.str "Anniston Army Depot"), ("code", Yaml.str "ANAD")],
    raw_overlays := [migoRule] }

/-- A variation carrying only `field`-style keys plus a `reason`, used for the
absent-key round-trip check of C6. -/
def fieldOnlyVariation : List (String × Yaml) :=
  [("field", Yaml.str "Storage Location"), ("enterprise_default", Yaml.str "optional"),
   ("site_override", Yaml.str "mandatory"), ("reason", Yaml.str "cycle count accuracy")]

/-! ### Claim theorems: overlay assembler -/

/-- C7: `resolve` is a pure function of the loaded state and ignores its
`role` argument — any two calls on the same state, with any role strings,
return structurally identical output. -/
theorem C7_resolve_role_independent (st : OpalOverlayAssembler) (r1 r2 : String) :
    st.resolve r1 = st.resolve r2 := rfl

/-- C8: with no site metadata and zero loaded rules, `resolve` returns
exactly the structure `{site: {}, overlays: []}` instead of failing. -/
theorem C8_resolve_empty (st : OpalOverlayAssembler) (role : String)
    (hsite : st.site_info = []) (hrules : st.raw_overlays = []) :
    st.resolve role = [("site", Yaml.map []), ("overlays", Yaml.seq [])] := by
  simp [OpalOverlayAssembler.resolve, hsite, hrules]

/-- Witness for C8 on the freshly initialised assembler. -/
theorem C8_resolve_empty_witness :
    OpalOverlayAssembler.resolve {} ""
      = [("site", Yaml.map []), ("overlays", Yaml.seq [])] :=
  C8_resolve_empty {} "" rfl rfl

/-- C6: every variation of every loaded rule reappears in `resolve` output
(projected by `resolveVariation` inside its rule's entry); the projection
always carries `type`, `enterprise_default`, `site_override` and a `reason`
defaulted to the empty string, and carries `step`, `tiers`, `condition`,
`actions`, `temperature_ranges` exactly when the raw variation does. -/
theorem C6_resolve_key_fidelity (st : OpalOverlayAssembler) (role : String)
    (r : List (String × Yaml)) (hr : r ∈ st.raw_overlays)
    (v : List (String × Yaml)) (hv : v ∈ varsOf r) :
    Yaml.map (resolveRule r) ∈ overlaysOf (st.resolve role) ∧
    Yaml.map (resolveVariation v) ∈ varsRaw (resolveRule r) ∧
    "type" ∈ dKeys (resolveVariation v) ∧
    "enterprise_default" ∈ dKeys (resolveVariation v) ∧
    "site_override" ∈ dKeys (resolveVariation v) ∧
    dGet (resolveVariation v) "reason" = some (dGetD v "reason" (Yaml.str "")) ∧
    (∀ k ∈ (["step", "tiers", "condition", "actions", "temperature_ranges"] : List String),
      (k ∈ dKeys (resolveVariation v) ↔ k ∈ dKeys v)) := by
  have h1 : overlaysOf (st.resolve role)
      = st.raw_overlays.map (fun u => Yaml.map (resolveRule u)) := rfl
  have h2 : varsRaw (resolveRule r)
      = (varsOf r).map (fun u => Yaml.map (resolveVariation u)) := rfl
  refine ⟨?_, ?_, ?_, ?_, ?_, ?_, ?_⟩
  · rw [h1]; exact List.mem_map_of_mem _ hr
  · rw [h2]; exact List.mem_map_of_mem _ hv
  · simp [resolveVariation, dKeys]
  · simp [resolveVariation, dKeys]
  · simp [resolveVariation, dKeys]
  · rfl
  · intro k hk
    rw [mem_dKeys_resolveVariation, ← dGet_isSome_iff_mem_dKeys]
    simp only [List.mem_cons, List.not_mem_nil, or_false] at hk
    rcases hk with rfl | rfl | rfl | rfl | rfl
    all_goals simp

/-- Rule wrapping `fieldOnlyVariation`. -/
def fieldOnlyRule : List (String × Yaml) :=
  [("process", Yaml.str "Putaway"), ("transaction", Yaml.str "LT01"),
   ("variations", Yaml.seq [Yaml.map fieldOnlyVariation])]

/-- Assembler loaded with the single field-only rule. -/
def fieldOnlyAssembler : OpalOverlayAssembler :=
  { site_info := [], raw_overlays := [fieldOnlyRule] }

/-- Witness for C6: a variation holding only `field`, `enterprise_default`,
`site_override`, `reason` resolves without a `step` key, with the base keys
present and the reason carried through. -/
theorem C6_resolve_key_fidelity_witness :
    "step" ∉ dKeys (resolveVariation fieldOnlyVariation) ∧
    "type" ∈ dKeys (resolveVariation fieldOnlyVariation) ∧
    dGet (resolveVariation fieldOnlyVariation) "reason"
      = some (Yaml.str "cycle count accuracy") := by
  have h := C6_resolve_key_fidelity fieldOnlyAssembler "" fieldOnlyRule
    (List.mem_singleton_self _) fieldOnlyVariation
    (by rw [show varsOf fieldOnlyRule = [fieldOnlyVariation] from rfl]
        exact List.mem_singleton_self _)
  refine ⟨?_, h.2.2.1, h.2.2.2.2.2.1.trans rfl⟩
  intro hmem
  have hiff := h.2.2.2.2.2.2 "step" (by simp)
  have : "step" ∈ dKeys fieldOnlyVariation := hiff.mp hmem
  simp [dKeys, fieldOnlyVariation] at this

/-- C9: `get_overlays_for_transaction` concatenates, in load order, the
variation lists of exactly the rules whose transaction matches the code
(`txnMatches`: exact, case-sensitive, missing key read as `""`); when no
rule matches, the result is empty. -/
theorem C9_get_overlays_for_transaction (st : OpalOverlayAssembler) (code : String) :
    st.get_overlays_for_transaction code
      = ((st.raw_overlays.filter (fun r => txnMatches r code)).map varsRaw).flatten ∧
    ((∀ r ∈ st.raw_overlays, txnMatches r code = false) →
      st.get_overlays_for_transaction code = []) := by
  have hgo : ∀ rules : List (List (String × Yaml)),
      OpalOverlayAssembler.get_overlays_for_transaction.go code rules
        = ((rules.filter (fun r => txnMatches r code)).map varsRaw).flatten := by
    intro rules
    induction rules with
    | nil => rfl
    | cons r rest ih =>
      by_cases h : txnMatches r code
      · simp [OpalOverlayAssembler.get_overlays_for_transaction.go, h, ih, List.filter_cons]
      · simp [OpalOverlayAssembler.get_overlays_for_transaction.go, h, ih, List.filter_cons]
  refine ⟨hgo st.raw_overlays, ?_⟩
  intro hnone
  have hfil : st.raw_overlays.filter (fun r => txnMatches r code) = [] := by
    rw [List.filter_eq_nil_iff]
    intro r hrr
    simp [hnone r hrr]
  show OpalOverlayAssembler.get_overlays_for_transaction.go code st.raw_overlays = []
  rw [hgo st.raw_overlays, hfil]
  rfl

/-- Witness for C9 on Scenario C: the wrong code MIGO8 matches no rule and
yields `[]`, while MIGO returns exactly the loaded variation. -/
theorem C9_get_overlays_for_transaction_witness :
    migoAssembler.get_overlays_for_transaction "MIGO8" = [] ∧
    migoAssembler.get_overlays_for_transaction "MIGO" = [Yaml.map migoVariation] :=
  ⟨(C9_get_overlays_for_transaction migoAssembler "MIGO8").2 (by decide), rfl⟩

/-! ### BPMN process model (`src/poc/parsers/bpmn_parser.py`)

The dataclasses of the BPMN parser.  `transaction_code` embeds
`re.search(r'\(([A-Z0-9]{2,10})\)', name)`: the pattern is tried at each
position left to right; at a position holding `(` the engine consumes a
maximal run of `[A-Z0-9]` (all backtracking lengths 2..10 fail unless the
run itself has length 2..10, because `)` is outside the class) and then
requires `)`. -/

/-- Characters of the class `[A-Z0-9]`. -/
def isUpperAlnum (c : Char) : Bool := ('A' ≤ c && c ≤ 'Z') || ('0' ≤ c && c ≤ '9')

/-- Match of `[A-Z0-9]{2,10}\)` at the position right after a `(`. -/
def tokAfterParen (l : List Char) : Option (List Char) :=
  let r := l.takeWhile isUpperAlnum
  if 2 ≤ r.length ∧ r.length ≤ 10 ∧ (l.dropWhile isUpperAlnum).head? = some ')' then some r
  else none

/-- Leftmost search for the bracketed transaction-code pattern. -/
def searchTok : List Char → Option (List Char)
  | [] => none
  | c :: rest =>
    if c = '(' then
      match tokAfterParen rest with
      | some t => some t
      | none => searchTok rest
    else searchTok rest

/-- BPMN task (class `Task`, extending `BpmnElement`). -/
structure Task where
  id : String
  name : String
  documentation : String := ""
  incoming : List String := []
  outgoing : List String := []
  deriving DecidableEq, Repr

/-- Property `Task.transaction_code`: group 1 of the first regex match in
`name`, or the empty string. -/
def Task.transaction_code (t : Task) : String :=
  match searchTok t.name.toList with
  | some tk => String.mk tk
  | none => ""

/-- BPMN gateway (class `Gateway`). -/
structure Gateway where
  id : String
  name : String
  documentation : String := ""
  gateway_type : String := ""
  incoming : List String := []
  outgoing : List String := []
  default_flow : String := ""
  deriving DecidableEq, Repr

/-- BPMN event (class `Event`). -/
structure Event where
  id : String
  name : String
  documentation : String := ""
  event_type : String := ""
  incoming : List String := []
  outgoing : List String := []
  deriving DecidableEq, Repr

/-- Sequence flow between two elements (class `SequenceFlow`). -/
structure SequenceFlow where
  id : String
  name : String
  source_ref : String
  target_ref : String
  deriving DecidableEq, Repr

/-- Participant / swimlane (class `Participant`). -/
structure Participant where
  id : String
  name : String
  process_ref : String := ""
  deriving DecidableEq, Repr

/-- Message flow between participants (class `MessageFlow`). -/
structure MessageFlow where
  id : String
  name : String
  source_ref : String
  target_ref : String
  deriving DecidableEq, Repr

/-- Data object (class `DataObject`). -/
structure DataObject where
  id : String
  documentation : String := ""
  deriving DecidableEq, Repr

/-! ### Specification predicate for the transaction-code claim -/

/-- A bracketed uppercase-alphanumeric token of length 2..10 occurring in
`s` at position `i`, with content `t`. -/
def TokAt (s : List Char) (i : Nat) (t : List Char) : Prop :=
  2 ≤ t.length ∧ t.length ≤ 10 ∧ (∀ c ∈ t, isUpperAlnum c = true) ∧
    ∃ rest, s.drop i = '(' :: (t ++ ')' :: rest)

/-- Splitting a run of class characters followed by a delimiter:
`takeWhile`/`dropWhile` recover the two parts. -/
theorem takeWhile_append_delim {p : Char → Bool} {t : List Char} {b : Char} {r : List Char}
    (ht : ∀ c ∈ t, p c = true) (hb : p b = false) :
    (t ++ b :: r).takeWhile p = t ∧ (t ++ b :: r).dropWhile p = b :: r := by
  induction t with
  | nil => simp [List.takeWhile, List.dropWhile, hb]
  | cons a t' ih =>
    have ha : p a = true := ht a (List.mem_cons_self a t')
    have ht' : ∀ c ∈ t', p c = true := fun c hc => ht c (List.mem_cons_of_mem a hc)
    have := ih ht'
    simp [List.takeWhile, List.dropWhile, ha, this.1, this.2]

/-- Characterisation of the after-bracket match. -/
theorem tokAfterParen_some_iff (l : List Char) (t : List Char) :
    tokAfterParen l = some t ↔
      (2 ≤ t.length ∧ t.length ≤ 10 ∧ (∀ c ∈ t, isUpperAlnum c = true) ∧
        ∃ r, l = t ++ ')' :: r) := by
  constructor
  · intro h
    unfold tokAfterParen at h
    by_cases hc : 2 ≤ (l.takeWhile isUpperAlnum).length ∧ (l.takeWhile isUpperAlnum).length ≤ 10 ∧
        (l.dropWhile isUpperAlnum).head? = some ')'
    · rw [if_pos hc] at h
      obtain ⟨h1, h2, h3⟩ := hc
      obtain rfl : l.takeWhile isUpperAlnum = t := by injection h
      refine ⟨h1, h2, fun c hc => List.mem_takeWhile_imp hc, ?_⟩
      obtain ⟨d, r, hd⟩ : ∃ d r, l.dropWhile isUpperAlnum = d :: r := by
        cases hdw : l.dropWhile isUpperAlnum with
        | nil => rw [hdw] at h3; simp at h3
        | cons d r => exact ⟨d, r, rfl⟩
      have hd' : d = ')' := by rw [hd] at h3; simpa using h3
      refine ⟨r, ?_⟩
      conv_lhs => rw [← List.takeWhile_append_dropWhile (p := isUpperAlnum) (l := l)]
      rw [hd, hd']
    · rw [if_neg hc] at h
      exact absurd h (by simp)
  · rintro ⟨h1, h2, h3, r, rfl⟩
    have hsplit := takeWhile_append_delim (t := t) (b := ')') (r := r) h3 (by decide)
    unfold tokAfterParen
    rw [if_pos]
    · rw [hsplit.1]
    · rw [hsplit.1, hsplit.2]
      exact ⟨h1, h2, rfl⟩

/-- At a fixed position a bracketed token is unique: the contents run up to
the first `)` after the bracket. -/
theorem TokAt_unique {s : List Char} {i : Nat} {t u : List Char}
    (ht : TokAt s i t) (hu : TokAt s i u) : t = u := by
  obtain ⟨-, -, hta, r1, he1⟩ := ht
  obtain ⟨-, -, hua, r2, he2⟩ := hu
  rw [he1] at he2
  have key : ∀ (t u r1 r2 : List Char), (∀ c ∈ t, isUpperAlnum c = true) →
      (∀ c ∈ u, isUpperAlnum c = true) → t ++ ')' :: r1 = u ++ ')' :: r2 → t = u := by
    intro t
    induction t with
    | nil =>
      intro u r1 r2 _ hu he
      cases u with
      | nil => rfl
      | cons b u' =>
        exfalso
        have hb : isUpperAlnum b = true := hu b (List.mem_cons_self b u')
        have : b = ')' := by simpa using congrArg (fun l => l.head?) he.symm
        rw [this] at hb
        exact absurd hb (by decide)
    | cons a t' ih =>
      intro u r1 r2 ht hu he
      cases u with
      | nil =>
        exfalso
        have ha : isUpperAlnum a = true := ht a (List.mem_cons_self a t')
        have : a = ')' := by simpa using congrArg (fun l => l.head?) he
        rw [this] at ha
        exact absurd ha (by decide)
      | cons b u' =>
        have hab : a = b := by simpa using congrArg (fun l => l.head?) he
        have htl : t' ++ ')' :: r1 = u' ++ ')' :: r2 := by
          have := congrArg List.tail he
          simpa using this
        have := ih u' r1 r2 (fun c hc => ht c (List.mem_cons_of_mem a hc))
          (fun c hc => hu c (List.mem_cons_of_mem b hc)) htl
        rw [hab, this]
  exact key t u r1 r2 hta hua (by injection he2)

/-- Shifting a token position past the head character. -/
theorem TokAt_succ (c : Char) (s : List Char) (j : Nat) (u : List Char) :
    TokAt (c :: s) (j + 1) u ↔ TokAt s j u := by
  unfold TokAt
  rw [List.drop_succ_cons]

/-- A token at position 0 is exactly a successful after-bracket match. -/
theorem TokAt_zero (c : Char) (s : List Char) (u : List Char) :
    TokAt (c :: s) 0 u ↔ (c = '(' ∧ tokAfterParen s = some u) := by
  rw [tokAfterParen_some_iff]
  unfold TokAt
  constructor
  · rintro ⟨h1, h2, h3, rest, he⟩
    rw [List.drop_zero] at he
    have hc : c = '(' := by injection he
    have hs : s = u ++ ')' :: rest := by injection he
    exact ⟨hc, h1, h2, h3, rest, hs⟩
  · rintro ⟨hc, h1, h2, h3, r, hr⟩
    exact ⟨h1, h2, h3, r, by simp [hc, hr]⟩

/-- The leftmost-search loop finds a token at the least position when it
returns one, and there is no token anywhere when it returns `none`. -/
theorem searchTok_spec (s : List Char) :
    (∀ t, searchTok s = some t →
      ∃ i, TokAt s i t ∧ ∀ j u, TokAt s j u → i ≤ j) ∧
    (searchTok s = none → ∀ j u, ¬ TokAt s j u) := by
  induction s with
  | nil =>
    constructor
    · intro t h
      exact absurd h (by simp [searchTok])
    · intro _ j u hu
      obtain ⟨-, -, -, rest, he⟩ := hu
      simp at he
  | cons c s' ih =>
    by_cases hc : c = '('
    · subst hc
      cases htk : tokAfterParen s' with
      | some t =>
        have hse : searchTok ('(' :: s') = some t := by simp [searchTok, htk]
        constructor
        · intro t' h
          rw [hse] at h
          have ht' : t = t' := by injection h
          subst ht'
          refine ⟨0, ?_, fun j u _ => Nat.zero_le j⟩
          exact (TokAt_zero _ _ _).mpr ⟨rfl, htk⟩
        · intro h
          rw [hse] at h
          exact absurd h (by simp)
      | none =>
        have hse : searchTok ('(' :: s') = searchTok s' := by simp [searchTok, htk]
        constructor
        · intro t h
          rw [hse] at h
          obtain ⟨i, hi, hmin⟩ := ih.1 t h
          refine ⟨i + 1, (TokAt_succ _ _ _ _).mpr hi, ?_⟩
          intro j u hu
          cases j with
          | zero =>
            obtain ⟨-, htk'⟩ := (TokAt_zero _ _ _).mp hu
            rw [htk'] at htk
            exact absurd htk (by simp)
          | succ j' => exact Nat.succ_le_succ (hmin j' u ((TokAt_succ _ _ _ _).mp hu))
        · intro h j u hu
          rw [hse] at h
          cases j with
          | zero =>
            obtain ⟨-, htk'⟩ := (TokAt_zero _ _ _).mp hu
            rw [htk'] at htk
            exact absurd htk (by simp)
          | succ j' => exact ih.2 h j' u ((TokAt_succ _ _ _ _).mp hu)
    · have hse : searchTok (c :: s') = searchTok s' := by simp [searchTok, hc]
      constructor
      · intro t h
        rw [hse] at h
        obtain ⟨i, hi, hmin⟩ := ih.1 t h
        refine ⟨i + 1, (TokAt_succ _ _ _ _).mpr hi, ?_⟩
        intro j u hu
        cases j with
        | zero => exact absurd ((TokAt_zero _ _ _).mp hu).1 hc
        | succ j' => exact Nat.succ_le_succ (hmin j' u ((TokAt_succ _ _ _ _).mp hu))
      · intro h j u hu
        rw [hse] at h
        cases j with
        | zero => exact absurd ((TokAt_zero _ _ _).mp hu).1 hc
        | succ j' => exact ih.2 h j' u ((TokAt_succ _ _ _ _).mp hu)

/-- C4: `transaction_code` is the content of the bracketed uppercase
alphanumeric token of length 2..10 at the leftmost position of `name` where
one occurs (`TokAt_unique` makes that token unambiguous), and the empty
string when no position holds such a token. -/
theorem C4_transaction_code (task : Task) :
    (∀ t, searchTok task.name.toList = some t →
      task.transaction_code = String.mk t ∧
        ∃ i, TokAt task.name.toList i t ∧ ∀ j u, TokAt task.name.toList j u → i ≤ j) ∧
    (searchTok task.name.toList = none →
      task.transaction_code = "" ∧ ∀ j u, ¬ TokAt task.name.toList j u) := by
  constructor
  · intro t h
    have h' : searchTok task.name.data = some t := h
    exact ⟨by simp [Task.transaction_code, h'], (searchTok_spec task.name.toList).1 t h⟩
  · intro h
    have h' : searchTok task.name.data = none := h
    exact ⟨by simp [Task.transaction_code, h'], (searchTok_spec task.name.toList).2 h⟩

/-- Task named as in spec §8 Scenario A. -/
def me51nTask : Task := { id := "task_create_pr", name := "Create PR (ME51N)" }

/-- Witness for C4: the Scenario A task yields exactly "ME51N", at the least
token position of its name. -/
theorem C4_transaction_code_witness :
    me51nTask.transaction_code = "ME51N" ∧
      ∃ i, TokAt me51nTask.name.toList i "ME51N".toList ∧
        ∀ j u, TokAt me51nTask.name.toList j u → i ≤ j := by
  have h := (C4_transaction_code me51nTask).1 "ME51N".toList (by decide)
  exact ⟨h.1.trans (by decide), h.2⟩

/-! ### XML document model and `BpmnParser.parse`

An XML element is a tag, attributes, direct text, and child elements.
Namespaced tags are written in their prefixed form ("bpmn:process" for the
BPMN-namespace `process` element), matching how the source addresses them
through its namespace map.  `parse` takes the already-parsed document root
(document-level syntax errors belong to the XML library layer, below this
model) and returns `Except`, with `Except.error` standing for the raise. -/

/-- XML element node. -/
inductive Xml where
  | node (tag : String) (attrs : List (String × String)) (text : Option String)
      (children : List Xml)

/-- Tag of an element. -/
def Xml.tag : Xml → String
  | .node t _ _ _ => t

/-- Attributes of an element. -/
def Xml.attrs : Xml → List (String × String)
  | .node _ a _ _ => a

/-- Direct text of an element (`el.text`, `none` for absent). -/
def Xml.textOf : Xml → Option String
  | .node _ _ tx _ => tx

/-- Child elements. -/
def Xml.children : Xml → List Xml
  | .node _ _ _ cs => cs

/-- Attribute lookup with default (`el.get(k, d)`). -/
def Xml.attrD (x : Xml) (k d : String) : String :=
  (((x.attrs).find? (fun e => e.1 = k)).map (·.2)).getD d

/-- First direct child with the given tag (`el.find(tag, NS)`). -/
def Xml.find (x : Xml) (t : String) : Option Xml :=
  x.children.find? (fun c => c.tag = t)

/-- All direct children with the given tag (`el.findall(tag, NS)`). -/
def Xml.findall (x : Xml) (t : String) : List Xml :=
  x.children.filter (fun c => c.tag = t)

/-- Python `str.strip()`: drop whitespace from both ends. -/
def stripL (s : String) : String :=
  String.mk (((s.toList.dropWhile Char.isWhitespace).reverse.dropWhile Char.isWhitespace).reverse)

/-- Python truthiness of an optional text: present and non-empty. -/
def truthyText : Option String → Option String
  | some s => if s = "" then none else some s
  | none => none

/-- Static method `BpmnParser._get_documentation`. -/
def getDocumentation (el : Xml) : String :=
  match el.find "bpmn:documentation" with
  | none => ""
  | some docEl =>
    match (match docEl.find "bpmn:text" with
           | some textEl => truthyText textEl.textOf
           | none => none) with
    | some s => stripL s
    | none =>
      match truthyText docEl.textOf with
      | some s2 => stripL s2
      | none => ""

/-- Truthy texts of a list of elements
(`[el.text for el in ... if el.text]`). -/
def truthyTexts (els : List Xml) : List String :=
  els.filterMap (fun e => truthyText e.textOf)

/-- Method `BpmnParser._parse_task`. -/
def parseTaskEl (el : Xml) : Task :=
  { id := el.attrD "id" "", name := el.attrD "name" "",
    documentation := getDocumentation el,
    incoming := truthyTexts (el.findall "bpmn:incoming"),
    outgoing := truthyTexts (el.findall "bpmn:outgoing") }

/-- Method `BpmnParser._parse_gateway`. -/
def parseGatewayEl (el : Xml) (gwType : String) : Gateway :=
  { id := el.attrD "id" "", name := el.attrD "name" "",
    gateway_type := gwType,
    documentation := getDocumentation el,
    incoming := truthyTexts (el.findall "bpmn:incoming"),
    outgoing := truthyTexts (el.findall "bpmn:outgoing"),
    default_flow := el.attrD "default" "" }

/-- Method `BpmnParser._parse_event`. -/
def parseEventEl (el : Xml) (evType : String) : Event :=
  { id := el.attrD "id" "", name := el.attrD "name" "",
    event_type := evType,
    documentation := getDocumentation el,
    incoming := truthyTexts (el.findall "bpmn:incoming"),
    outgoing := truthyTexts (el.findall "bpmn:outgoing") }

/-- Parsed BPMN process (class `BpmnProcess`). -/
structure BpmnProcess where
  id : String
  name : String
  documentation : String := ""
  tasks : List Task := []
  gateways : List Gateway := []
  events : List Event := []
  sequence_flows : List SequenceFlow := []
  participants : List Participant := []
  message_flows : List MessageFlow := []
  data_objects : List DataObject := []
  deriving DecidableEq, Repr

/-- Method `BpmnParser.parse`, after the XML library has produced the
document root: fails exactly on a missing top-level `bpmn:process` child,
otherwise populates every model list. -/
def parseBpmn (root : Xml) : Except String BpmnProcess :=
  let doc_text := getDocumentation root
  match root.find "bpmn:process" with
  | none => Except.error "No bpmn:process element found"
  | some processEl =>
    Except.ok
      { id := processEl.attrD "id" "",
        name := processEl.attrD "name" "",
        documentation := if doc_text ≠ "" then doc_text else getDocumentation processEl,
        tasks := (processEl.findall "bpmn:task").map parseTaskEl
          ++ ((["bpmn:userTask", "bpmn:serviceTask", "bpmn:sendTask", "bpmn:receiveTask"
               ] : List String).map
                (fun tg => (processEl.findall tg).map parseTaskEl)).flatten,
        gateways := (processEl.findall "bpmn:exclusiveGateway").map (parseGatewayEl · "exclusive")
          ++ (processEl.findall "bpmn:parallelGateway").map (parseGatewayEl · "parallel")
          ++ (processEl.findall "bpmn:inclusiveGateway").map (parseGatewayEl · "inclusive"),
        events := (processEl.findall "bpmn:startEvent").map (parseEventEl · "start")
          ++ (processEl.findall "bpmn:intermediateThrowEvent").map (parseEventEl · "intermediate")
          ++ (processEl.findall "bpmn:intermediateCatchEvent").map (parseEventEl · "intermediate")
          ++ (processEl.findall "bpmn:endEvent").map (parseEventEl · "end"),
        sequence_flows := (processEl.findall "bpmn:sequenceFlow").map (fun f =>
          { id := f.attrD "id" "", name := f.attrD "name" "",
            source_ref := f.attrD "sourceRef" "", target_ref := f.attrD "targetRef" "" }),
        participants :=
          match root.find "bpmn:collaboration" with
          | some col => (col.findall "bpmn:participant").map (fun p =>
              { id := p.attrD "id" "", name := p.attrD "name" "",
                process_ref := p.attrD "processRef" "" })
          | none => [],
        message_flows :=
          match root.find "bpmn:collaboration" with
          | some col => (col.findall "bpmn:messageFlow").map (fun m =>
              { id := m.attrD "id" "", name := m.attrD "name" "",
                source_ref := m.attrD "sourceRef" "", target_ref := m.attrD "targetRef" "" })
          | none => [],
        data_objects := (root.findall "bpmn:itemDefinition").filterMap (fun it =>
          let d := getDocumentation it
          if d ≠ "" then some { id := it.attrD "id" "", documentation := d } else none) }

/-- C3: `parse` fails exactly when the document root has no direct
`bpmn:process` child; with such a child present it returns a populated
process without raising. -/
theorem C3_parse_error_iff (root : Xml) :
    ((∃ e, parseBpmn root = Except.error e) ↔
      (∀ c ∈ root.children, c.tag ≠ "bpmn:process")) ∧
    ((∃ c ∈ root.children, c.tag = "bpmn:process") →
      ∃ pr, parseBpmn root = Except.ok pr) := by
  cases hf : root.find "bpmn:process" with
  | none =>
    have hnone : ∀ c ∈ root.children, c.tag ≠ "bpmn:process" := by
      intro c hc
      have := List.find?_eq_none.mp hf c hc
      simpa using this
    constructor
    · constructor
      · intro _; exact hnone
      · intro _
        exact ⟨"No bpmn:process element found", by simp [parseBpmn, hf]⟩
    · rintro ⟨c, hc, htag⟩
      exact absurd htag (hnone c hc)
  | some p =>
    have hmem : p ∈ root.children := List.mem_of_find?_eq_some hf
    have htag : p.tag = "bpmn:process" := by
      have := List.find?_some hf
      simpa using this
    have hok : ∃ pr, parseBpmn root = Except.ok pr := by
      unfold parseBpmn
      rw [hf]
      exact ⟨_, rfl⟩
    constructor
    · constructor
      · rintro ⟨e, he⟩
        obtain ⟨pr, hpr⟩ := hok
        rw [hpr] at he
        exact absurd he (by simp)
      · intro hall
        exact absurd htag (hall p hmem)
    · intro _
      exact hok

/-- Document root with a process child, for the C3 witness. -/
def sampleBpmnRoot : Xml :=
  Xml.node "bpmn:definitions" [] none
    [Xml.node "bpmn:process" [("id", "proc_p2p"), ("name", "Procure to Pay")] none []]

/-- Witness for C3: the sample document parses successfully. -/
theorem C3_parse_error_iff_witness :
    ∃ pr, parseBpmn sampleBpmnRoot = Except.ok pr :=
  (C3_parse_error_iff sampleBpmnRoot).2
    ⟨Xml.node "bpmn:process" [("id", "proc_p2p"), ("name", "Procure to Pay")] none [],
     List.mem_singleton_self _, rfl⟩

/-! ### Derived views of `BpmnProcess` and the BFS of `ordered_elements`

The traversal of `ordered_elements` works on element ids.  The Python dict
`elements` (tasks, then gateways, then events, keyed by id, later writes
overwriting earlier values) is modelled by `elemsDict`; the adjacency lookup
`flow_map.get(id, [])` equals the targets, in document order, of the flows
whose source is `id` (`succsOf`).  The `while queue` loop is embedded with
explicit fuel: each iteration pops exactly one queue entry, and the total
number of enqueues is at most one (the start id) plus one per flow, so
`sequence_flows.length + 1` fuel always runs the loop to completion
(`bfsVisit_complete` quantifies the needed fuel as `bfsFuelBound`). -/

/-- Union of the three element lists, in the dict-insertion order of the
source. -/
inductive BpmnNode where
  | task : Task → BpmnNode
  | gateway : Gateway → BpmnNode
  | event : Event → BpmnNode
  deriving DecidableEq, Repr

/-- Id of a node. -/
def BpmnNode.nid : BpmnNode → String
  | .task t => t.id
  | .gateway g => g.id
  | .event e => e.id

/-- Elements in insertion order: tasks, gateways, events. -/
def elemNodes (p : BpmnProcess) : List BpmnNode :=
  p.tasks.map BpmnNode.task ++ p.gateways.map BpmnNode.gateway ++ p.events.map BpmnNode.event

/-- Python dict assignment `m[k] = v`: overwrite in place or append. -/
def dictUpsert (m : List (String × BpmnNode)) (k : String) (v : BpmnNode) :
    List (String × BpmnNode) :=
  if m.any (fun e => e.1 = k) then m.map (fun e => if e.1 = k then (k, v) else e)
  else m ++ [(k, v)]

/-- The `elements` dict of `ordered_elements`. -/
def elemsDict (p : BpmnProcess) : List (String × BpmnNode) :=
  (elemNodes p).foldl (fun m n => dictUpsert m n.nid n) []

/-- Dict lookup `elements[i]` (`none` when `i not in elements`). -/
def elemLookup (p : BpmnProcess) (i : String) : Option BpmnNode :=
  ((elemsDict p).find? (fun e => e.1 = i)).map (·.2)

/-- Adjacency of the sequence-flow graph in document order
(`flow_map.get(i, [])`). -/
def succsOf (flows : List SequenceFlow) (i : String) : List String :=
  (flows.filter (fun f => f.source_ref = i)).map (·.target_ref)

/-- First event with `event_type == "start"`. -/
def startEvent (p : BpmnProcess) : Option Event :=
  p.events.find? (fun e => e.event_type = "start")

/-- The `while queue` loop of `ordered_elements`, emitting visited ids in
visit order.  One fuel unit is one loop iteration. -/
def bfsVisit (flows : List SequenceFlow) : Nat → List String → List String → List String
  | 0, _, _ => []
  | _ + 1, _, [] => []
  | fuel + 1, visited, q :: qs =>
    if q ∈ visited then bfsVisit flows fuel visited qs
    else q :: bfsVisit flows fuel (visited ++ [q])
      (qs ++ (succsOf flows q).filter (fun y => ¬ y ∈ visited ++ [q]))

/-- Visit order of ids for a process started at `st`. -/
def orderedIds (p : BpmnProcess) (st : String) : List String :=
  bfsVisit p.sequence_flows (p.sequence_flows.length + 1) [] [st]

/-- Property `BpmnProcess.ordered_elements`. -/
def BpmnProcess.ordered_elements (p : BpmnProcess) : List BpmnNode :=
  match startEvent p with
  | none => (elemsDict p).map (·.2)
  | some st => (orderedIds p st.id).filterMap (elemLookup p)

/-- Property `BpmnProcess.decision_points`: exclusive gateways only. -/
def BpmnProcess.decision_points (p : BpmnProcess) : List Gateway :=
  p.gateways.filter (fun g => g.gateway_type = "exclusive")

/-- Method `BpmnProcess.get_outgoing_flows`. -/
def BpmnProcess.get_outgoing_flows (p : BpmnProcess) (i : String) : List (String × String) :=
  (p.sequence_flows.filter (fun f => f.source_ref = i)).map (fun f => (f.target_ref, f.name))

/-! ### Reachability along sequence flows -/

/-- Path of a given length along the flow graph. -/
inductive ReachesIn (flows : List SequenceFlow) : Nat → String → String → Prop
  | refl (x : String) : ReachesIn flows 0 x x
  | step {n : Nat} {x y z : String} (hy : y ∈ succsOf flows x)
      (h : ReachesIn flows n y z) : ReachesIn flows (n + 1) x z

/-- Reachability along the flow graph. -/
def Reaches (flows : List SequenceFlow) (x y : String) : Prop :=
  ∃ n, ReachesIn flows n x y

/-- `n` is the exact graph distance from `s` to `x`. -/
def distIs (flows : List SequenceFlow) (s x : String) (n : Nat) : Prop :=
  ReachesIn flows n s x ∧ ∀ m, ReachesIn flows m s x → n ≤ m

/-- Output comparison used for breadth-first order: every distance of `a` is
at most every distance of `b` (distances are unique, so this is just
`dist a ≤ dist b`). -/
def LevelLE (flows : List SequenceFlow) (s a b : String) : Prop :=
  ∀ m n, distIs flows s a m → distIs flows s b n → m ≤ n

/-- A path avoiding a set of ids (used for BFS completeness). -/
inductive ReachAvoid (flows : List SequenceFlow) (avoid : List String) : String → String → Prop
  | refl (x : String) (hx : x ∉ avoid) : ReachAvoid flows avoid x x
  | step {x y z : String} (hx : x ∉ avoid) (hy : y ∈ succsOf flows x)
      (h : ReachAvoid flows avoid y z) : ReachAvoid flows avoid x z

theorem reachesIn_zero {flows : List SequenceFlow} {x y : String}
    (h : ReachesIn flows 0 x y) : y = x := by
  cases h
  rfl

theorem reachesIn_succ_iff {flows : List SequenceFlow} {n : Nat} {x z : String} :
    ReachesIn flows (n + 1) x z ↔ ∃ y ∈ succsOf flows x, ReachesIn flows n y z := by
  constructor
  · intro h
    cases h with
    | step hy h => exact ⟨_, hy, h⟩
  · rintro ⟨y, hy, h⟩
    exact .step hy h

/-- Appending one edge at the end of a path. -/
theorem reachesIn_snoc {flows : List SequenceFlow} {n : Nat} {s p z : String}
    (h : ReachesIn flows n s p) (hz : z ∈ succsOf flows p) :
    ReachesIn flows (n + 1) s z := by
  induction h with
  | refl x => exact .step hz (.refl z)
  | step hy _ ih => exact .step hy (ih hz)

/-- Removing the last edge of a nonempty path. -/
theorem reachesIn_last {flows : List SequenceFlow} :
    ∀ {n : Nat} {s z : String}, ReachesIn flows (n + 1) s z →
      ∃ p, ReachesIn flows n s p ∧ z ∈ succsOf flows p := by
  intro n
  induction n with
  | zero =>
    intro s z h
    rcases reachesIn_succ_iff.mp h with ⟨y, hy, h0⟩
    rcases reachesIn_zero h0
    exact ⟨s, .refl s, hy⟩
  | succ n ih =>
    intro s z h
    rcases reachesIn_succ_iff.mp h with ⟨y, hy, h1⟩
    obtain ⟨p, hp, hz⟩ := ih h1
    exact ⟨p, .step hy hp, hz⟩

theorem reachAvoid_head {flows : List SequenceFlow} {a : List String} {x y : String}
    (h : ReachAvoid flows a x y) : x ∉ a := by
  cases h with
  | refl _ hx => exact hx
  | step hx _ _ => exact hx

theorem reachAvoid_target {flows : List SequenceFlow} {a : List String} {x y : String}
    (h : ReachAvoid flows a x y) : y ∉ a := by
  induction h with
  | refl _ hx => exact hx
  | step _ _ _ ih => exact ih

/-- Reachability avoiding nothing is plain reachability. -/
theorem reaches_iff_reachAvoid_nil {flows : List SequenceFlow} {x y : String} :
    Reaches flows x y ↔ ReachAvoid flows [] x y := by
  constructor
  · rintro ⟨n, h⟩
    induction h with
    | refl z => exact .refl z (by simp)
    | step hy _ ih => exact .step (by simp) hy ih
  · intro h
    induction h with
    | refl z _ => exact ⟨0, .refl z⟩
    | step _ hy _ ih =>
      obtain ⟨n, hn⟩ := ih
      exact ⟨n + 1, .step hy hn⟩

/-- Extending the avoided set by a fresh id `q`: a path either ends at `q`,
avoids `q` throughout, or has a suffix starting at a successor of `q` that
avoids `q`. -/
theorem reachAvoid_extend {flows : List SequenceFlow} {v : List String} {q s x : String}
    (h : ReachAvoid flows v s x) (hq : q ∉ v) :
    x = q ∨ ReachAvoid flows (v ++ [q]) s x ∨
      ∃ y ∈ succsOf flows q, ReachAvoid flows (v ++ [q]) y x := by
  induction h with
  | refl z hz =>
    by_cases hzq : z = q
    · exact Or.inl hzq
    · exact Or.inr (Or.inl (.refl z (by simp [hz, hzq])))
  | step hx hy _ ih =>
    rcases ih with hxq | hmid | hlast
    · exact Or.inl hxq
    · rename_i x' y' z' _
      by_cases hxq : x' = q
      · subst hxq
        exact Or.inr (Or.inr ⟨y', hy, hmid⟩)
      · exact Or.inr (Or.inl (.step (by simp [hx, hxq]) hy hmid))
    · exact Or.inr (Or.inr hlast)

/-! ### Soundness, completeness and distinctness of the BFS loop -/

/-- Upper bound on the remaining loop iterations: current queue length plus
one enqueue per flow whose source has not yet been visited. -/
def bfsFuelBound (flows : List SequenceFlow) (visited queue : List String) : Nat :=
  queue.length + (flows.filter (fun f => ¬ f.source_ref ∈ visited)).length

/-- Visiting `q` converts the flows leaving `q` from "pending" to "spent". -/
theorem filter_src_split (flows : List SequenceFlow) (visited : List String) (q : String)
    (hq : q ∉ visited) :
    (flows.filter (fun f => ¬ f.source_ref ∈ visited ++ [q])).length
      + (flows.filter (fun f => f.source_ref = q)).length
      = (flows.filter (fun f => ¬ f.source_ref ∈ visited)).length := by
  induction flows with
  | nil => rfl
  | cons f rest ih =>
    by_cases h1 : f.source_ref = q
    · have h2 : ¬ f.source_ref ∈ visited := by rw [h1]; exact hq
      have h3 : f.source_ref ∈ visited ++ [q] := by simp [h1]
      simp [List.filter_cons, h1, h2, h3, hq] at ih ⊢
      omega
    · by_cases h2 : f.source_ref ∈ visited
      · have h3 : f.source_ref ∈ visited ++ [q] := by simp [h2]
        simp [List.filter_cons, h1, h2, h3] at ih ⊢
        omega
      · have h3 : ¬ f.source_ref ∈ visited ++ [q] := by simp [h1, h2]
        simp [List.filter_cons, h1, h2, h3] at ih ⊢
        omega

/-- Everything the loop emits is unvisited and reachable from the queue. -/
theorem bfsVisit_sound (flows : List SequenceFlow) :
    ∀ (fuel : Nat) (visited queue : List String) (x : String),
      x ∈ bfsVisit flows fuel visited queue →
      x ∉ visited ∧ ∃ s ∈ queue, Reaches flows s x := by
  intro fuel
  induction fuel with
  | zero =>
    intro visited queue x hx
    simp [bfsVisit] at hx
  | succ fuel ih =>
    intro visited queue x hx
    cases queue with
    | nil => simp [bfsVisit] at hx
    | cons q qs =>
      by_cases hqv : q ∈ visited
      · rw [show bfsVisit flows (fuel + 1) visited (q :: qs)
            = bfsVisit flows fuel visited qs from by simp [bfsVisit, hqv]] at hx
        obtain ⟨hnv, s, hs, hr⟩ := ih visited qs x hx
        exact ⟨hnv, s, List.mem_cons_of_mem q hs, hr⟩
      · rw [show bfsVisit flows (fuel + 1) visited (q :: qs)
            = q :: bfsVisit flows fuel (visited ++ [q])
                (qs ++ (succsOf flows q).filter (fun y => ¬ y ∈ visited ++ [q]))
            from by simp [bfsVisit, hqv]] at hx
        rcases List.mem_cons.mp hx with rfl | hx'
        · exact ⟨hqv, x, List.mem_cons_self x qs, 0, .refl x⟩
        · obtain ⟨hnv, s, hs, hr⟩ := ih _ _ x hx'
          have hnv' : x ∉ visited := fun hc => hnv (by simp [hc])
          rcases List.mem_append.mp hs with hs1 | hs2
          · exact ⟨hnv', s, List.mem_cons_of_mem q hs1, hr⟩
          · have hs3 : s ∈ succsOf flows q := (List.mem_filter.mp hs2).1
            obtain ⟨n, hn⟩ := hr
            exact ⟨hnv', q, List.mem_cons_self q qs, n + 1, .step hs3 hn⟩

/-- The loop never emits an id twice. -/
theorem bfsVisit_nodup (flows : List SequenceFlow) :
    ∀ (fuel : Nat) (visited queue : List String),
      (bfsVisit flows fuel visited queue).Nodup := by
  intro fuel
  induction fuel with
  | zero => intro _ _; simp [bfsVisit]
  | succ fuel ih =>
    intro visited queue
    cases queue with
    | nil => simp [bfsVisit]
    | cons q qs =>
      by_cases hqv : q ∈ visited
      · simpa [bfsVisit, hqv] using ih visited qs
      · rw [show bfsVisit flows (fuel + 1) visited (q :: qs)
            = q :: bfsVisit flows fuel (visited ++ [q])
                (qs ++ (succsOf flows q).filter (fun y => ¬ y ∈ visited ++ [q]))
            from by simp [bfsVisit, hqv]]
        refine List.Nodup.cons ?_ (ih _ _)
        intro hq
        exact (bfsVisit_sound flows fuel _ _ q hq).1 (by simp)

/-- With fuel at least `bfsFuelBound`, the loop reaches every id that has a
path from the queue avoiding the visited set. -/
theorem bfsVisit_complete (flows : List SequenceFlow) :
    ∀ (fuel : Nat) (visited queue : List String) (x : String),
      bfsFuelBound flows visited queue ≤ fuel →
      (∃ s ∈ queue, ReachAvoid flows visited s x) →
      x ∈ bfsVisit flows fuel visited queue := by
  intro fuel
  induction fuel with
  | zero =>
    rintro visited queue x hb ⟨s, hs, -⟩
    exfalso
    have h1 : 0 < queue.length := List.length_pos.mpr (List.ne_nil_of_mem hs)
    have h2 : queue.length ≤ bfsFuelBound flows visited queue := Nat.le_add_right _ _
    omega
  | succ fuel ih =>
    rintro visited queue x hb ⟨s, hs, hra⟩
    cases queue with
    | nil => cases hs
    | cons q qs =>
      have hsx : s ∉ visited := reachAvoid_head hra
      by_cases hqv : q ∈ visited
      · rw [show bfsVisit flows (fuel + 1) visited (q :: qs)
            = bfsVisit flows fuel visited qs from by simp [bfsVisit, hqv]]
        have hs' : s ∈ qs := by
          rcases List.mem_cons.mp hs with rfl | h
          · exact absurd hqv hsx
          · exact h
        apply ih
        · have : bfsFuelBound flows visited (q :: qs)
              = bfsFuelBound flows visited qs + 1 := by
            simp [bfsFuelBound]
            omega
          omega
        · exact ⟨s, hs', hra⟩
      · rw [show bfsVisit flows (fuel + 1) visited (q :: qs)
            = q :: bfsVisit flows fuel (visited ++ [q])
                (qs ++ (succsOf flows q).filter (fun y => ¬ y ∈ visited ++ [q]))
            from by simp [bfsVisit, hqv]]
        rcases reachAvoid_extend hra hqv with rfl | hmid | ⟨y, hy, hyra⟩
        · exact List.mem_cons_self x _
        · apply List.mem_cons_of_mem
          have hsq : s ≠ q := by
            intro hc
            exact reachAvoid_head hmid (by simp [hc])
          have hs' : s ∈ qs := by
            rcases List.mem_cons.mp hs with rfl | h
            · exact absurd rfl hsq
            · exact h
          apply ih
          · have hlen : ((succsOf flows q).filter (fun y => ¬ y ∈ visited ++ [q])).length
                ≤ (flows.filter (fun f => f.source_ref = q)).length := by
              calc ((succsOf flows q).filter (fun y => ¬ y ∈ visited ++ [q])).length
                  ≤ (succsOf flows q).length := List.length_filter_le _ _
                _ = (flows.filter (fun f => f.source_ref = q)).length := by
                      simp [succsOf]
            have hsplit := filter_src_split flows visited q hqv
            simp only [bfsFuelBound, List.length_cons, List.length_append] at hb ⊢
            omega
          · exact ⟨s, List.mem_append_left _ hs', hmid⟩
        · apply List.mem_cons_of_mem
          have hynv : y ∉ visited ++ [q] := reachAvoid_head hyra
          have hyS : y ∈ (succsOf flows q).filter (fun u => ¬ u ∈ visited ++ [q]) :=
            List.mem_filter.mpr ⟨hy, by simpa using hynv⟩
          apply ih
          · have hlen : ((succsOf flows q).filter (fun u => ¬ u ∈ visited ++ [q])).length
                ≤ (flows.filter (fun f => f.source_ref = q)).length := by
              calc ((succsOf flows q).filter (fun u => ¬ u ∈ visited ++ [q])).length
                  ≤ (succsOf flows q).length := List.length_filter_le _ _
                _ = (flows.filter (fun f => f.source_ref = q)).length := by
                      simp [succsOf]
            have hsplit := filter_src_split flows visited q hqv
            simp only [bfsFuelBound, List.length_cons, List.length_append] at hb ⊢
            omega
          · exact ⟨y, List.mem_append_right _ hyS, hyra⟩

/-! ### Graph distances -/

theorem distIs_unique {flows : List SequenceFlow} {s x : String} {m n : Nat}
    (hm : distIs flows s x m) (hn : distIs flows s x n) : m = n :=
  Nat.le_antisymm (hm.2 n hn.1) (hn.2 m hm.1)

/-- Every reachable id has a well-defined least distance. -/
theorem dist_exists {flows : List SequenceFlow} {s x : String} {n : Nat}
    (h : ReachesIn flows n s x) : ∃ k, distIs flows s x k := by
  classical
  have hex : ∃ m, ReachesIn flows m s x := ⟨n, h⟩
  exact ⟨Nat.find hex, Nat.find_spec hex, fun m hm => Nat.find_min' hex hm⟩

theorem distIs_self (flows : List SequenceFlow) (s : String) : distIs flows s s 0 :=
  ⟨.refl s, fun m _ => Nat.zero_le m⟩

theorem distIs_zero {flows : List SequenceFlow} {s x : String}
    (h : distIs flows s x 0) : x = s :=
  reachesIn_zero h.1

/-- A shortest path of positive length ends with an edge from an id at the
previous level. -/
theorem distIs_pred {flows : List SequenceFlow} {s x : String} {n : Nat}
    (h : distIs flows s x (n + 1)) :
    ∃ p, distIs flows s p n ∧ x ∈ succsOf flows p := by
  obtain ⟨p, hp, hx⟩ := reachesIn_last h.1
  obtain ⟨k, hk⟩ := dist_exists hp
  have hkn : k ≤ n := hk.2 n hp
  rcases Nat.lt_or_ge k n with hlt | hge
  · exfalso
    have hr : ReachesIn flows (k + 1) s x := reachesIn_snoc hk.1 hx
    have := h.2 (k + 1) hr
    omega
  · have hkeq : k = n := Nat.le_antisymm hkn hge
    rw [hkeq] at hk
    exact ⟨p, hk, hx⟩

/-! ### Breadth-first level order of the loop

The invariant `BfsInv` describes the loop state mid-traversal: the queue
decomposes as `A ++ B` where (unvisited) `A`-entries sit at the current
level `d` and (unvisited) `B`-entries at level `d + 1` (or are duplicates of
`A`-entries); all levels below `d` are fully visited; every level-`d` id is
in the visited set or the queue; and the frontier is closed (successors of
visited ids are visited or queued). -/

def BfsInv (flows : List SequenceFlow) (s : String)
    (visited A B : List String) (d : Nat) : Prop :=
  (∀ v ∈ visited, ∃ k, k ≤ d ∧ distIs flows s v k) ∧
  (∀ x ∈ A, x ∉ visited → distIs flows s x d) ∧
  (∀ x ∈ B, x ∉ visited → distIs flows s x (d + 1) ∨ x ∈ A) ∧
  (∀ x k, distIs flows s x k → k < d → x ∈ visited) ∧
  (∀ x, distIs flows s x d → x ∈ visited ∨ x ∈ A ∨ x ∈ B) ∧
  (∀ p ∈ visited, ∀ z ∈ succsOf flows p, z ∈ visited ∨ z ∈ A ∨ z ∈ B)

/-- Under the invariant, the loop emits ids of level at least `d`, in
non-decreasing level order. -/
theorem bfsVisit_level_mono (flows : List SequenceFlow) (s : String) :
    ∀ (fuel : Nat) (visited A B : List String) (d : Nat),
      BfsInv flows s visited A B d →
      (∀ x ∈ bfsVisit flows fuel visited (A ++ B), ∃ k, d ≤ k ∧ distIs flows s x k) ∧
      (bfsVisit flows fuel visited (A ++ B)).Pairwise (LevelLE flows s) := by
  intro fuel
  induction fuel with
  | zero =>
    intro visited A B d _
    simp [bfsVisit]
  | succ fuel ih =>
    intro visited A B d hinv
    obtain ⟨h1, h2, h3, h4, h5, h6⟩ := hinv
    cases A with
    | cons q A' =>
      by_cases hqv : q ∈ visited
      · -- skip a visited id of the current level
        have heq : bfsVisit flows (fuel + 1) visited ((q :: A') ++ B)
            = bfsVisit flows fuel visited (A' ++ B) := by
          simp [bfsVisit, hqv]
        rw [heq]
        apply ih
        refine ⟨h1, ?_, ?_, h4, ?_, ?_⟩
        · exact fun x hx hnx => h2 x (List.mem_cons_of_mem q hx) hnx
        · intro x hx hnx
          rcases h3 x hx hnx with hd1 | hA
          · exact Or.inl hd1
          · rcases List.mem_cons.mp hA with rfl | hA'
            · exact absurd hqv hnx
            · exact Or.inr hA'
        · intro x hdx
          rcases h5 x hdx with hv | hA | hB
          · exact Or.inl hv
          · rcases List.mem_cons.mp hA with rfl | hA'
            · exact Or.inl hqv
            · exact Or.inr (Or.inl hA')
          · exact Or.inr (Or.inr hB)
        · intro p hp z hz
          rcases h6 p hp z hz with hv | hA | hB
          · exact Or.inl hv
          · rcases List.mem_cons.mp hA with rfl | hA'
            · exact Or.inl hqv
            · exact Or.inr (Or.inl hA')
          · exact Or.inr (Or.inr hB)
      · -- visit an unvisited id of the current level
        have hdq : distIs flows s q d := h2 q (List.mem_cons_self q A') hqv
        have heq : bfsVisit flows (fuel + 1) visited ((q :: A') ++ B)
            = q :: bfsVisit flows fuel (visited ++ [q])
                (A' ++ (B ++ (succsOf flows q).filter (fun y => ¬ y ∈ visited ++ [q]))) := by
          simp [bfsVisit, hqv, List.append_assoc]
        set S := (succsOf flows q).filter (fun y => ¬ y ∈ visited ++ [q]) with hS
        have hAmem : ∀ x, distIs flows s x d → x ∉ visited → x ≠ q → x ∈ A' := by
          intro x hdx hnxv hnxq
          rcases h5 x hdx with hv | hA | hB
          · exact absurd hv hnxv
          · rcases List.mem_cons.mp hA with rfl | hA'
            · exact absurd rfl hnxq
            · exact hA'
          · rcases h3 x hB hnxv with hd1 | hA
            · exact absurd (distIs_unique hdx hd1) (by omega)
            · rcases List.mem_cons.mp hA with rfl | hA'
              · exact absurd rfl hnxq
              · exact hA'
        have hinv' : BfsInv flows s (visited ++ [q]) A' (B ++ S) d := by
          refine ⟨?_, ?_, ?_, ?_, ?_, ?_⟩
          · intro v hv
            rcases List.mem_append.mp hv with hv1 | hv2
            · exact h1 v hv1
            · have : v = q := by simpa using hv2
              exact ⟨d, Nat.le_refl d, this ▸ hdq⟩
          · intro x hx hnx
            have hnxv : x ∉ visited := fun hc => hnx (by simp [hc])
            exact h2 x (List.mem_cons_of_mem q hx) hnxv
          · intro x hx hnx
            have hnxv : x ∉ visited := fun hc => hnx (by simp [hc])
            have hnxq : x ≠ q := fun hc => hnx (by simp [hc])
            rcases List.mem_append.mp hx with hxB | hxS
            · rcases h3 x hxB hnxv with hd1 | hA
              · exact Or.inl hd1
              · rcases List.mem_cons.mp hA with rfl | hA'
                · exact absurd rfl hnxq
                · exact Or.inr hA'
            · have hxsucc : x ∈ succsOf flows q := (List.mem_filter.mp hxS).1
              have hreach : ReachesIn flows (d + 1) s x := reachesIn_snoc hdq.1 hxsucc
              obtain ⟨k, hk⟩ := dist_exists hreach
              have hkle : k ≤ d + 1 := hk.2 _ hreach
              have hknotlt : ¬ k < d := fun hlt => hnxv (h4 x k hk hlt)
              rcases (by omega : k = d ∨ k = d + 1) with hkd | hkd1
              · rw [hkd] at hk
                exact Or.inr (hAmem x hk hnxv hnxq)
              · rw [hkd1] at hk
                exact Or.inl hk
          · intro x k hdx hlt
            exact List.mem_append_left _ (h4 x k hdx hlt)
          · intro x hdx
            rcases h5 x hdx with hv | hA | hB
            · exact Or.inl (List.mem_append_left _ hv)
            · rcases List.mem_cons.mp hA with rfl | hA'
              · exact Or.inl (List.mem_append_right _ (by simp))
              · exact Or.inr (Or.inl hA')
            · exact Or.inr (Or.inr (List.mem_append_left _ hB))
          · intro p hp z hz
            rcases List.mem_append.mp hp with hpv | hpq
            · rcases h6 p hpv z hz with hv | hA | hB
              · exact Or.inl (List.mem_append_left _ hv)
              · rcases List.mem_cons.mp hA with rfl | hA'
                · exact Or.inl (List.mem_append_right _ (by simp))
                · exact Or.inr (Or.inl hA')
              · exact Or.inr (Or.inr (List.mem_append_left _ hB))
            · have hpq' : p = q := by simpa using hpq
              subst hpq'
              by_cases hzv : z ∈ visited ++ [p]
              · exact Or.inl hzv
              · refine Or.inr (Or.inr (List.mem_append_right _ ?_))
                exact List.mem_filter.mpr ⟨hz, by simpa using hzv⟩
        have hrec := ih (visited ++ [q]) A' (B ++ S) d hinv'
        rw [heq]
        constructor
        · intro x hx
          rcases List.mem_cons.mp hx with rfl | hx'
          · exact ⟨d, Nat.le_refl d, hdq⟩
          · exact hrec.1 x hx'
        · rw [List.pairwise_cons]
          refine ⟨?_, hrec.2⟩
          intro y hy
          obtain ⟨k, hdk, hky⟩ := hrec.1 y hy
          intro m n hm hn
          have hmd : m = d := distIs_unique hm hdq
          have hnk : n = k := distIs_unique hn hky
          omega
    | nil =>
      cases B with
      | nil =>
        simp [bfsVisit]
      | cons q B' =>
        by_cases hqv : q ∈ visited
        · -- skip a visited id of the next level
          have heq : bfsVisit flows (fuel + 1) visited (([] : List String) ++ (q :: B'))
              = bfsVisit flows fuel visited (([] : List String) ++ B') := by
            simp [bfsVisit, hqv]
          rw [heq]
          apply ih
          refine ⟨h1, ?_, ?_, h4, ?_, ?_⟩
          · intro x hx
            exact absurd hx (List.not_mem_nil x)
          · intro x hx hnx
            rcases h3 x (List.mem_cons_of_mem q hx) hnx with hd1 | hA
            · exact Or.inl hd1
            · exact absurd hA (List.not_mem_nil x)
          · intro x hdx
            rcases h5 x hdx with hv | hA | hB
            · exact Or.inl hv
            · exact absurd hA (List.not_mem_nil x)
            · rcases List.mem_cons.mp hB with rfl | hB'
              · exact Or.inl hqv
              · exact Or.inr (Or.inr hB')
          · intro p hp z hz
            rcases h6 p hp z hz with hv | hA | hB
            · exact Or.inl hv
            · exact absurd hA (List.not_mem_nil z)
            · rcases List.mem_cons.mp hB with rfl | hB'
              · exact Or.inl hqv
              · exact Or.inr (Or.inr hB')
        · -- level transition: first unvisited id of the next level
          have hdq1 : distIs flows s q (d + 1) := by
            rcases h3 q (List.mem_cons_self q B') hqv with hd1 | hA
            · exact hd1
            · exact absurd hA (List.not_mem_nil q)
          have heq : bfsVisit flows (fuel + 1) visited (([] : List String) ++ (q :: B'))
              = q :: bfsVisit flows fuel (visited ++ [q])
                  (B' ++ (succsOf flows q).filter (fun y => ¬ y ∈ visited ++ [q])) := by
            simp [bfsVisit, hqv]
          set S := (succsOf flows q).filter (fun y => ¬ y ∈ visited ++ [q]) with hS
          have hpvis : ∀ p, distIs flows s p d → p ∈ visited := by
            intro p hpd
            rcases h5 p hpd with hv | hA | hB
            · exact hv
            · exact absurd hA (List.not_mem_nil p)
            · rcases List.mem_cons.mp hB with rfl | hB'
              · exact absurd (distIs_unique hpd hdq1) (by omega)
              · by_cases hpv : p ∈ visited
                · exact hpv
                · rcases h3 p (List.mem_cons_of_mem q hB') hpv with hd1 | hA
                  · exact absurd (distIs_unique hpd hd1) (by omega)
                  · exact absurd hA (List.not_mem_nil p)
          have hstepmem : ∀ x, distIs flows s x (d + 1) → x ∉ visited ++ [q] → x ∈ B' := by
            intro x hdx hnx
            have hnxv : x ∉ visited := fun hc => hnx (by simp [hc])
            have hnxq : x ≠ q := fun hc => hnx (by simp [hc])
            obtain ⟨p, hpd, hxp⟩ := distIs_pred hdx
            have hpv : p ∈ visited := hpvis p hpd
            rcases h6 p hpv x hxp with hv | hA | hB
            · exact absurd hv hnxv
            · exact absurd hA (List.not_mem_nil x)
            · rcases List.mem_cons.mp hB with rfl | hB'
              · exact absurd rfl hnxq
              · exact hB'
          have hinv' : BfsInv flows s (visited ++ [q]) B' S (d + 1) := by
            refine ⟨?_, ?_, ?_, ?_, ?_, ?_⟩
            · intro v hv
              rcases List.mem_append.mp hv with hv1 | hv2
              · obtain ⟨k, hk1, hk2⟩ := h1 v hv1
                exact ⟨k, by omega, hk2⟩
              · have : v = q := by simpa using hv2
                exact ⟨d + 1, Nat.le_refl _, this ▸ hdq1⟩
            · intro x hx hnx
              have hnxv : x ∉ visited := fun hc => hnx (by simp [hc])
              rcases h3 x (List.mem_cons_of_mem q hx) hnxv with hd1 | hA
              · exact hd1
              · exact absurd hA (List.not_mem_nil x)
            · intro x hx hnx
              have hnxv : x ∉ visited := fun hc => hnx (by simp [hc])
              have hnxq : x ≠ q := fun hc => hnx (by simp [hc])
              have hxsucc : x ∈ succsOf flows q := (List.mem_filter.mp hx).1
              have hreach : ReachesIn flows (d + 2) s x := reachesIn_snoc hdq1.1 hxsucc
              obtain ⟨k, hk⟩ := dist_exists hreach
              have hkle : k ≤ d + 2 := hk.2 _ hreach
              have hknotlt : ¬ k < d + 1 := by
                intro hlt
                rcases (by omega : k < d ∨ k = d) with hlt' | hkd
                · exact hnxv (h4 x k hk hlt')
                · rw [hkd] at hk
                  exact hnxv (hpvis x hk)
              rcases (by omega : k = d + 1 ∨ k = d + 2) with hkd1 | hkd2
              · rw [hkd1] at hk
                exact Or.inr (hstepmem x hk hnx)
              · rw [hkd2] at hk
                exact Or.inl hk
            · intro x k hdx hlt
              rcases (by omega : k < d ∨ k = d) with hlt' | hkd
              · exact List.mem_append_left _ (h4 x k hdx hlt')
              · rw [hkd] at hdx
                exact List.mem_append_left _ (hpvis x hdx)
            · intro x hdx
              by_cases hxv : x ∈ visited ++ [q]
              · exact Or.inl hxv
              · exact Or.inr (Or.inl (hstepmem x hdx hxv))
            · intro p hp z hz
              rcases List.mem_append.mp hp with hpv | hpq
              · rcases h6 p hpv z hz with hv | hA | hB
                · exact Or.inl (List.mem_append_left _ hv)
                · exact absurd hA (List.not_mem_nil z)
                · rcases List.mem_cons.mp hB with rfl | hB'
                  · exact Or.inl (List.mem_append_right _ (by simp))
                  · exact Or.inr (Or.inl hB')
              · have hpq' : p = q := by simpa using hpq
                subst hpq'
                by_cases hzv : z ∈ visited ++ [p]
                · exact Or.inl hzv
                · refine Or.inr (Or.inr ?_)
                  exact List.mem_filter.mpr ⟨hz, by simpa using hzv⟩
          have hrec := ih (visited ++ [q]) B' S (d + 1) hinv'
          rw [heq]
          constructor
          · intro x hx
            rcases List.mem_cons.mp hx with rfl | hx'
            · exact ⟨d + 1, by omega, hdq1⟩
            · obtain ⟨k, hk1, hk2⟩ := hrec.1 x hx'
              exact ⟨k, by omega, hk2⟩
          · rw [List.pairwise_cons]
            refine ⟨?_, hrec.2⟩
            intro y hy
            obtain ⟨k, hdk, hky⟩ := hrec.1 y hy
            intro m n hm hn
            have hmd : m = d + 1 := distIs_unique hm hdq1
            have hnk : n = k := distIs_unique hn hky
            omega

/-! ### The `elements` dict of `ordered_elements` -/

theorem dictUpsert_mem {m : List (String × BpmnNode)} {k : String} {v : BpmnNode}
    {e : String × BpmnNode} (he : e ∈ dictUpsert m k v) : e ∈ m ∨ e = (k, v) := by
  unfold dictUpsert at he
  by_cases hk : m.any (fun e => e.1 = k)
  · rw [if_pos hk] at he
    obtain ⟨e0, he0, heq⟩ := List.mem_map.mp he
    by_cases h0 : e0.1 = k
    · rw [if_pos h0] at heq
      exact Or.inr heq.symm
    · rw [if_neg h0] at heq
      exact Or.inl (heq ▸ he0)
  · rw [if_neg hk] at he
    rcases List.mem_append.mp he with h | h
    · exact Or.inl h
    · right
      simpa using h

theorem dictUpsert_keys (m : List (String × BpmnNode)) (k : String) (v : BpmnNode) (i : String) :
    i ∈ (dictUpsert m k v).map (·.1) ↔ (i ∈ m.map (·.1) ∨ i = k) := by
  unfold dictUpsert
  by_cases hk : m.any (fun e => e.1 = k)
  · rw [if_pos hk, List.map_map]
    constructor
    · intro hi
      obtain ⟨e0, he0, heq⟩ := List.mem_map.mp hi
      by_cases h0 : e0.1 = k
      · simp only [Function.comp, if_pos h0] at heq
        exact Or.inr heq.symm
      · simp only [Function.comp, if_neg h0] at heq
        exact Or.inl (List.mem_map.mpr ⟨e0, he0, heq⟩)
    · intro hi
      rcases hi with hi | rfl
      · obtain ⟨e0, he0, heq⟩ := List.mem_map.mp hi
        refine List.mem_map.mpr ⟨e0, he0, ?_⟩
        by_cases h0 : e0.1 = k
        · simp only [Function.comp, if_pos h0]
          rw [← h0, heq]
        · simp only [Function.comp, if_neg h0]
          exact heq
      · obtain ⟨e0, he0, h0⟩ := List.any_eq_true.mp hk
        refine List.mem_map.mpr ⟨e0, he0, ?_⟩
        simp only [Function.comp]
        simp only [decide_eq_true_eq] at h0
        simp [h0]
  · rw [if_neg hk]
    simp [List.mem_append, eq_comm]

theorem foldl_upsert_mem (ns : List BpmnNode) :
    ∀ (m : List (String × BpmnNode)) (e : String × BpmnNode),
      e ∈ ns.foldl (fun acc n => dictUpsert acc n.nid n) m →
      e ∈ m ∨ ∃ n ∈ ns, e = (n.nid, n) := by
  induction ns with
  | nil =>
    intro m e he
    exact Or.inl he
  | cons n ns ih =>
    intro m e he
    rw [List.foldl_cons] at he
    rcases ih _ e he with h | ⟨n', hn', rfl⟩
    · rcases dictUpsert_mem h with h1 | h1
      · exact Or.inl h1
      · exact Or.inr ⟨n, List.mem_cons_self n ns, h1⟩
    · exact Or.inr ⟨n', List.mem_cons_of_mem n hn', rfl⟩

/-- Every dict entry is an element keyed by its own id. -/
theorem elemsDict_entries (p : BpmnProcess) :
    ∀ e ∈ elemsDict p, e.1 = e.2.nid ∧ e.2 ∈ elemNodes p := by
  intro e he
  rcases foldl_upsert_mem (elemNodes p) [] e he with h | ⟨n, hn, rfl⟩
  · cases h
  · exact ⟨rfl, hn⟩

/-- The dict keys are exactly the element ids. -/
theorem elemsDict_keys (p : BpmnProcess) (i : String) :
    i ∈ (elemsDict p).map (·.1) ↔ i ∈ (elemNodes p).map BpmnNode.nid := by
  suffices h : ∀ (ns : List BpmnNode) (m : List (String × BpmnNode)),
      i ∈ (ns.foldl (fun acc n => dictUpsert acc n.nid n) m).map (·.1)
        ↔ (i ∈ m.map (·.1) ∨ i ∈ ns.map BpmnNode.nid) by
    simpa [elemsDict] using h (elemNodes p) []
  intro ns
  induction ns with
  | nil => simp
  | cons n ns ih =>
    intro m
    rw [List.foldl_cons, ih, dictUpsert_keys]
    simp only [List.map_cons, List.mem_cons]
    tauto

/-- Lookup success determines the result: the element with the looked-up id. -/
theorem elemLookup_sound {p : BpmnProcess} {i : String} {nd : BpmnNode}
    (h : elemLookup p i = some nd) : nd ∈ elemNodes p ∧ nd.nid = i := by
  unfold elemLookup at h
  cases hf : (elemsDict p).find? (fun e => e.1 = i) with
  | none => rw [hf] at h; exact absurd h (by simp)
  | some e =>
    rw [hf] at h
    have he : e.2 = nd := by simpa using h
    have hmem : e ∈ elemsDict p := List.mem_of_find?_eq_some hf
    have hpred : e.1 = i := by simpa using List.find?_some hf
    obtain ⟨hk, hv⟩ := elemsDict_entries p e hmem
    exact ⟨he ▸ hv, by rw [← he, ← hk, hpred]⟩

/-- With distinct element ids, every element is found under its id. -/
theorem elemLookup_complete {p : BpmnProcess} (hids : ((elemNodes p).map BpmnNode.nid).Nodup)
    {nd : BpmnNode} (hnd : nd ∈ elemNodes p) :
    elemLookup p nd.nid = some nd := by
  have hkey : nd.nid ∈ (elemsDict p).map (·.1) :=
    (elemsDict_keys p nd.nid).mpr (List.mem_map.mpr ⟨nd, hnd, rfl⟩)
  obtain ⟨e, he, hpe⟩ := List.mem_map.mp hkey
  have hf : ((elemsDict p).find? (fun u => u.1 = nd.nid)).isSome := by
    rw [List.find?_isSome]
    exact ⟨e, he, by simp [hpe]⟩
  obtain ⟨e', hfe⟩ := Option.isSome_iff_exists.mp hf
  have hmem : e' ∈ elemsDict p := List.mem_of_find?_eq_some hfe
  have hpred : e'.1 = nd.nid := by simpa using List.find?_some hfe
  obtain ⟨hk, hv⟩ := elemsDict_entries p e' hmem
  have hninj : e'.2 = nd :=
    List.inj_on_of_nodup_map hids hv hnd (by rw [← hk, hpred])
  unfold elemLookup
  rw [hfe]
  simp [hninj]

/-! ### The visit order of `ordered_elements` -/

/-- The fuel `sequence_flows.length + 1` used by `orderedIds` meets the
bound of `bfsVisit_complete`, so reachability implies membership. -/
theorem reaches_mem_bfs {flows : List SequenceFlow} {a b : String}
    (h : Reaches flows a b) :
    b ∈ bfsVisit flows (flows.length + 1) [] [a] := by
  apply bfsVisit_complete
  · have hle := List.length_filter_le (fun f => ¬ f.source_ref ∈ ([] : List String)) flows
    simp only [bfsFuelBound, List.length_cons, List.length_nil]
    omega
  · exact ⟨a, by simp, reaches_iff_reachAvoid_nil.mp h⟩

/-- Ids are visited exactly when reachable from the start id. -/
theorem orderedIds_mem (p : BpmnProcess) (st x : String) :
    x ∈ orderedIds p st ↔ Reaches p.sequence_flows st x := by
  constructor
  · intro hx
    obtain ⟨-, s, hs, hr⟩ := bfsVisit_sound p.sequence_flows _ _ _ x hx
    have : s = st := by simpa using hs
    exact this ▸ hr
  · intro h
    exact reaches_mem_bfs h

theorem orderedIds_nodup (p : BpmnProcess) (st : String) : (orderedIds p st).Nodup :=
  bfsVisit_nodup p.sequence_flows _ _ _

/-- The visit order is sorted by graph distance from the start id. -/
theorem orderedIds_pairwise (p : BpmnProcess) (st : String) :
    (orderedIds p st).Pairwise (LevelLE p.sequence_flows st) := by
  have hinv : BfsInv p.sequence_flows st [] [st] [] 0 := by
    refine ⟨?_, ?_, ?_, ?_, ?_, ?_⟩
    · intro v hv
      cases hv
    · intro x hx _
      have : x = st := by simpa using hx
      exact this ▸ distIs_self p.sequence_flows st
    · intro x hx
      cases hx
    · intro x k _ hk
      omega
    · intro x hdx
      have : x = st := distIs_zero hdx
      exact Or.inr (Or.inl (by simp [this]))
    · intro q hq
      cases hq
  have h := (bfsVisit_level_mono p.sequence_flows st
    (p.sequence_flows.length + 1) [] [st] [] 0 hinv).2
  simpa [orderedIds] using h

/-- A predicate holding on exactly one list entry is found by `find?`. -/
theorem find?_of_filter_singleton {α : Type} {p : α → Bool} {l : List α} {a : α}
    (h : l.filter p = [a]) : l.find? p = some a := by
  induction l with
  | nil => simp at h
  | cons x xs ih =>
    by_cases hx : p x
    · rw [List.filter_cons_of_pos hx] at h
      have hxa : x = a := by injection h
      rw [List.find?_cons_of_pos _ hx, hxa]
    · rw [List.filter_cons_of_neg hx] at h
      rw [List.find?_cons_of_neg _ hx]
      exact ih h

/-- Ids of the emitted elements: the visited ids that are element keys. -/
theorem map_nid_filterMap_lookup (p : BpmnProcess) (ids : List String) :
    ((ids.filterMap (elemLookup p)).map BpmnNode.nid)
      = ids.filter (fun i => (elemLookup p i).isSome) := by
  induction ids with
  | nil => rfl
  | cons i ids ih =>
    cases hl : elemLookup p i with
    | none => simp [List.filterMap_cons, hl, ih, List.filter_cons]
    | some nd =>
      have hnid : nd.nid = i := (elemLookup_sound hl).2
      simp [List.filterMap_cons, hl, ih, List.filter_cons, hnid]

/-- C1 (amended): for a process with exactly one start event, distinct
element ids and an acyclic flow graph, `ordered_elements` contains exactly
the elements reachable from the start event, each exactly once, in
breadth-first order: non-decreasing graph distance from the start.  (The
relative order of same-level elements follows the queue, not the
source-document order of their incoming flows — see `C1_counterexample`.) -/
theorem C1_ordered_elements (p : BpmnProcess) (e : Event)
    (hstart : p.events.filter (fun ev => ev.event_type = "start") = [e])
    (hids : ((elemNodes p).map BpmnNode.nid).Nodup)
    (hacyc : ∀ x, ¬ ∃ y ∈ succsOf p.sequence_flows x, Reaches p.sequence_flows y x) :
    (∀ nd, nd ∈ p.ordered_elements ↔
      nd ∈ elemNodes p ∧ Reaches p.sequence_flows e.id nd.nid) ∧
    p.ordered_elements.Nodup ∧
    (p.ordered_elements.map BpmnNode.nid).Pairwise (LevelLE p.sequence_flows e.id) := by
  have hse : startEvent p = some e := find?_of_filter_singleton hstart
  have hoe : p.ordered_elements = (orderedIds p e.id).filterMap (elemLookup p) := by
    unfold BpmnProcess.ordered_elements
    rw [hse]
  refine ⟨?_, ?_, ?_⟩
  · intro nd
    rw [hoe, List.mem_filterMap]
    constructor
    · rintro ⟨i, hi, hl⟩
      obtain ⟨hmem, hnid⟩ := elemLookup_sound hl
      exact ⟨hmem, hnid ▸ (orderedIds_mem p e.id i).mp hi⟩
    · rintro ⟨hmem, hr⟩
      exact ⟨nd.nid, (orderedIds_mem p e.id nd.nid).mpr hr, elemLookup_complete hids hmem⟩
  · rw [hoe]
    have h1 := map_nid_filterMap_lookup p (orderedIds p e.id)
    have h2 : ((orderedIds p e.id).filter (fun i => (elemLookup p i).isSome)).Nodup :=
      (List.filter_sublist _).nodup (orderedIds_nodup p e.id)
    exact List.Nodup.of_map _ (h1 ▸ h2)
  · rw [hoe, map_nid_filterMap_lookup]
    exact List.Pairwise.sublist (List.filter_sublist _) (orderedIds_pairwise p e.id)

/-! ### Fixture refuting the same-level tie-break clause of C1 -/

/-- Start event of the crossed-flows process. -/
def cexStart : Event := { id := "S", name := "Start", event_type := "start" }

/-- Flows whose document order is inverted relative to the breadth-first
parent order: the level-2 targets Y and X have their incoming flows first,
ahead of the start event's outgoing flows. -/
def cexFlows : List SequenceFlow :=
  [{ id := "f1", name := "", source_ref := "B", target_ref := "Y" },
   { id := "f2", name := "", source_ref := "A", target_ref := "X" },
   { id := "f3", name := "", source_ref := "S", target_ref := "A" },
   { id := "f4", name := "", source_ref := "S", target_ref := "B" }]

/-- Acyclic process with one start event and four tasks on two levels. -/
def cexProc : BpmnProcess :=
  { id := "proc_cex", name := "Crossed flows",
    tasks := [{ id := "A", name := "Task A" }, { id := "B", name := "Task B" },
              { id := "X", name := "Task X" }, { id := "Y", name := "Task Y" }],
    events := [cexStart],
    sequence_flows := cexFlows }

theorem mem_sources_of_succs {flows : List SequenceFlow} {x y : String}
    (h : y ∈ succsOf flows x) : x ∈ flows.map (·.source_ref) := by
  obtain ⟨f, hf, -⟩ := List.mem_map.mp h
  have hmem : f ∈ flows := (List.mem_filter.mp hf).1
  have hsrc : f.source_ref = x := by simpa using (List.mem_filter.mp hf).2
  exact List.mem_map.mpr ⟨f, hmem, hsrc⟩

/-- The crossed-flows graph has no cycle. -/
theorem cex_acyclic : ∀ x, ¬ ∃ y ∈ succsOf cexFlows x, Reaches cexFlows y x := by
  rintro x ⟨y, hy, hr⟩
  have hxsrc := mem_sources_of_succs hy
  have hmem := reaches_mem_bfs hr
  simp only [cexFlows, List.map_cons, List.map_nil, List.mem_cons, List.not_mem_nil,
    or_false] at hxsrc
  rcases hxsrc with rfl | rfl | rfl | rfl
  · rw [show succsOf cexFlows "B" = ["Y"] from rfl] at hy
    simp only [List.mem_cons, List.not_mem_nil, or_false] at hy
    subst hy
    exact absurd hmem (by decide)
  · rw [show succsOf cexFlows "A" = ["X"] from rfl] at hy
    simp only [List.mem_cons, List.not_mem_nil, or_false] at hy
    subst hy
    exact absurd hmem (by decide)
  · rw [show succsOf cexFlows "S" = ["A", "B"] from rfl] at hy
    simp only [List.mem_cons, List.not_mem_nil, or_false] at hy
    rcases hy with rfl | rfl
    · exact absurd hmem (by decide)
    · exact absurd hmem (by decide)
  · rw [show succsOf cexFlows "S" = ["A", "B"] from rfl] at hy
    simp only [List.mem_cons, List.not_mem_nil, or_false] at hy
    rcases hy with rfl | rfl
    · exact absurd hmem (by decide)
    · exact absurd hmem (by decide)

/-- C1 counterexample: in `cexProc` (one start event, distinct ids, acyclic)
the tasks X and Y sit at the same level 2; Y's only incoming flow (f1)
precedes X's only incoming flow (f2) in document order, so the claim's
tie-break puts Y before X; but `ordered_elements` emits `[S, A, B, X, Y]` —
X first — because same-level order follows the order in which level-1
parents were dequeued, not the document order of incoming flows. -/
theorem C1_counterexample :
    (cexProc.events.filter (fun ev => ev.event_type = "start") = [cexStart]) ∧
    ((elemNodes cexProc).map BpmnNode.nid).Nodup ∧
    (∀ x, ¬ ∃ y ∈ succsOf cexProc.sequence_flows x, Reaches cexProc.sequence_flows y x) ∧
    distIs cexProc.sequence_flows cexStart.id "X" 2 ∧
    distIs cexProc.sequence_flows cexStart.id "Y" 2 ∧
    (cexProc.sequence_flows.filter (fun f => f.target_ref = "Y")).map (·.id) = ["f1"] ∧
    (cexProc.sequence_flows.filter (fun f => f.target_ref = "X")).map (·.id) = ["f2"] ∧
    cexProc.sequence_flows.map (·.id) = ["f1", "f2", "f3", "f4"] ∧
    cexProc.ordered_elements.map BpmnNode.nid = ["S", "A", "B", "X", "Y"] := by
  refine ⟨by decide, by decide, cex_acyclic, ?_, ?_, by decide, by decide, by decide, by decide⟩
  · constructor
    · exact ReachesIn.step (show "A" ∈ succsOf cexFlows "S" by decide)
        (ReachesIn.step (show "X" ∈ succsOf cexFlows "A" by decide) (ReachesIn.refl "X"))
    · intro m hm
      match m with
      | 0 => exact absurd (reachesIn_zero hm) (by decide)
      | 1 =>
        exfalso
        rcases reachesIn_succ_iff.mp hm with ⟨y, hy, h0⟩
        rw [← reachesIn_zero h0] at hy
        exact absurd hy (by decide)
      | (m + 2) => omega
  · constructor
    · exact ReachesIn.step (show "B" ∈ succsOf cexFlows "S" by decide)
        (ReachesIn.step (show "Y" ∈ succsOf cexFlows "B" by decide) (ReachesIn.refl "Y"))
    · intro m hm
      match m with
      | 0 => exact absurd (reachesIn_zero hm) (by decide)
      | 1 =>
        exfalso
        rcases reachesIn_succ_iff.mp hm with ⟨y, hy, h0⟩
        rw [← reachesIn_zero h0] at hy
        exact absurd hy (by decide)
      | (m + 2) => omega

/-- Witness for the amended C1 on the same fixture: its hypotheses hold, the
reachable task X is emitted, and the output has no duplicates. -/
theorem C1_ordered_elements_witness :
    (cexProc.events.filter (fun ev => ev.event_type = "start") = [cexStart]) ∧
    BpmnNode.task { id := "X", name := "Task X" } ∈ cexProc.ordered_elements ∧
    cexProc.ordered_elements.Nodup := by
  have h := C1_ordered_elements cexProc cexStart (by decide) (by decide) cex_acyclic
  refine ⟨by decide, ?_, h.2.1⟩
  apply (h.1 _).mpr
  refine ⟨by decide, ?_⟩
  show Reaches cexFlows "S" "X"
  exact ⟨2, ReachesIn.step (show "A" ∈ succsOf cexFlows "S" by decide)
    (ReachesIn.step (show "X" ∈ succsOf cexFlows "A" by decide) (ReachesIn.refl "X"))⟩
